import Mathlib

/-!
# c7a/core/hash_table.hpp : reduce hash table with partitions

A shallow embedding of `c7a::core::HashTable<KeyExtractor, ReduceFunction>`.

* A chain of `node`s hanging off `array_[i]` is a `List (node K V)`, head first; the
  null pointer is the empty list.
* `array_` is the list of the `num_buckets_ = 100` chains, `items_in_part_` the list of
  the per-partition counters.  A read outside a list yields the default (`List.getD`)
  and a write outside is dropped (`List.set`); on a constructed table every index the
  code uses is inside the arrays (`hash_result_bounds`, `largest_part_Inv`,
  `Inv_capacity`).
* The `int` counters are `Int`; `num_partitions_` and `buckets_per_part_` only ever hold
  values in `[0, 100]` and are `Nat`.  A counter is the number of nodes of its partition
  (`Inv.count_eq`), so no wrap-around is modelled.  `Size` returns the total as it is:
  the conversion to `size_t` is the identity on the non-negative totals of `Inv`.
* `emit_` is the sink: every operation returns the list of values it pushed, in push order.
* `std::hash<key_t>`, `key_extractor_` and `reduce_function_` are parameters.
* `max_table_size_` (3 in the source) is a field fixed at construction.
-/

namespace c7a

/-- The fixed bucket capacity `static const int num_buckets_ = 100`. -/
def num_buckets_ : Nat := 100

/-- The chain cell `struct node` (lines 65-70) without its `next` pointer. -/
structure node (K V : Type) where
  key : K
  value : V
deriving DecidableEq, Repr

/-- The data members of `HashTable` (lines 310-332). -/
structure HashTable (K V : Type) where
  max_table_size_ : Int
  num_partitions_ : Nat
  buckets_per_part_ : Nat
  items_in_part_ : List Int
  total_table_size_ : Int
  array_ : List (List (node K V))
deriving DecidableEq, Repr

/-- How a constructor call can fail: the `throw std::invalid_argument` of line 82, or the
integer division by zero of line 86 (undefined behaviour, a trap on common hardware). -/
inductive construct_error where
  | invalid_argument
  | division_by_zero
deriving DecidableEq, Repr

/-- The result of `struct hash_result` (lines 43-63). -/
structure hash_result where
  partition_id : Nat
  partition_offset : Nat
  global_index : Nat
deriving DecidableEq, Repr

section Operations

variable {K V : Type} [DecidableEq K]

/-- The constructor (lines 74-91), with the member initialiser of `max_table_size_` as a
parameter. -/
def HashTable.construct (max_table_size_ : Int) (partition_size : Nat) :
    Except construct_error (HashTable K V) :=
  if partition_size > num_buckets_ then
    Except.error construct_error.invalid_argument
  else if partition_size = 0 then
    -- `num_buckets_ / num_partitions_` with `num_partitions_ == 0`
    Except.error construct_error.division_by_zero
  else
    Except.ok
      { max_table_size_ := max_table_size_
        num_partitions_ := partition_size
        buckets_per_part_ := num_buckets_ / partition_size
        items_in_part_ := List.replicate partition_size 0
        total_table_size_ := 0
        array_ := List.replicate num_buckets_ [] }

/-- The constructor as the source has it: `max_table_size_ = 3`. -/
def HashTable.new (partition_size : Nat) : Except construct_error (HashTable K V) :=
  HashTable.construct 3 partition_size

/-- The constructor of `hash_result` (lines 51-62). -/
def hash_result.of (hash : K → Nat) (v : K) (ht : HashTable K V) : hash_result :=
  let hashed := hash v
  let partition_offset := hashed % ht.buckets_per_part_
  let partition_id := partition_offset % ht.num_partitions_
  { partition_id := partition_id
    partition_offset := partition_offset
    global_index := partition_offset + partition_id * ht.buckets_per_part_ }

/-- The `do ... while` scan of a non-empty chain (lines 137-154): `some` of the chain with
the first node of key `key` reduced, or `none` when `curr_node` ends as `nullptr`. -/
def scan_chain (reduce_function_ : V → V → V) (key : K) (p : V) :
    List (node K V) → Option (List (node K V))
  | [] => none
  | curr_node :: next =>
    if key = curr_node.key then
      some ({ curr_node with value := reduce_function_ curr_node.value p } :: next)
    else
      (scan_chain reduce_function_ key p next).map (fun rest => curr_node :: rest)

/-- The statement `items_in_part_[i]++`. -/
def incr_at (items : List Int) (i : Nat) : List Int :=
  items.set i (items.getD i 0 + 1)

/-- The body of `Insert` up to the spill check (lines 103-174). -/
def HashTable.Insert_update (hash : K → Nat) (key_extractor_ : V → K)
    (reduce_function_ : V → V → V) (s : HashTable K V) (p : V) : HashTable K V :=
  let key := key_extractor_ p
  let h := hash_result.of hash key s
  match s.array_.getD h.global_index [] with
  | [] =>
    { s with
      array_ := s.array_.set h.global_index [{ key := key, value := p }]
      items_in_part_ := incr_at s.items_in_part_ h.partition_id
      total_table_size_ := s.total_table_size_ + 1 }
  | curr_node :: next =>
    match scan_chain reduce_function_ key p (curr_node :: next) with
    | some chain => { s with array_ := s.array_.set h.global_index chain }
    | none =>
      { s with
        array_ := s.array_.set h.global_index ({ key := key, value := p } :: curr_node :: next)
        items_in_part_ := incr_at s.items_in_part_ h.partition_id
        total_table_size_ := s.total_table_size_ + 1 }

/-- The first loop of `PopLargestSubtable` (lines 190-197): `(p_size_max, p_idx)`. -/
def largest_part (items_in_part_ : List Int) (num_partitions_ : Nat) : Int × Nat :=
  (List.range num_partitions_).foldl
    (fun (acc : Int × Nat) i =>
      if items_in_part_.getD i 0 > acc.1 then (items_in_part_.getD i 0, i) else acc)
    (0, 0)

/-- The bucket loop shared by `PopLargestSubtable` (lines 211-222) and `Flush`
(lines 241-250): visit the `n` buckets from index `i` on, walk each non-empty chain from
head to tail and reset it to `nullptr`.  Returns the array and the nodes visited, in
order; the code passes each visited node's `value` to `emit_`. -/
def drain_buckets (array_ : List (List (node K V))) :
    Nat → Nat → List (List (node K V)) × List (node K V)
  | _, 0 => (array_, [])
  | i, n + 1 =>
    match array_.getD i [] with
    | [] => drain_buckets array_ (i + 1) n
    | curr_node :: next =>
      let r := drain_buckets (array_.set i []) (i + 1) n
      (r.1, (curr_node :: next) ++ r.2)

/-- The partition `p_idx` that `PopLargestSubtable` selects in state `s`. -/
def HashTable.p_idx (s : HashTable K V) : Nat :=
  (largest_part s.items_in_part_ s.num_partitions_).2

/-- The nodes and the state of `PopLargestSubtable` (lines 187-228). -/
def HashTable.PopLargestSubtable_nodes (s : HashTable K V) : HashTable K V × List (node K V) :=
  let m := largest_part s.items_in_part_ s.num_partitions_
  let p_size_max := m.1
  let p_idx := m.2
  let r := drain_buckets s.array_ (p_idx * s.buckets_per_part_) s.buckets_per_part_
  ({ s with
     array_ := r.1
     items_in_part_ := s.items_in_part_.set p_idx 0
     total_table_size_ := s.total_table_size_ - p_size_max }, r.2)

/-- `PopLargestSubtable` (lines 187-228): the new state and the values pushed to `emit_`. -/
def HashTable.PopLargestSubtable (s : HashTable K V) : HashTable K V × List V :=
  ((HashTable.PopLargestSubtable_nodes s).1,
    (HashTable.PopLargestSubtable_nodes s).2.map node.value)

/-- `Insert` tracing the nodes drained by its spill (lines 101-181). -/
def HashTable.Insert_nodes (hash : K → Nat) (key_extractor_ : V → K)
    (reduce_function_ : V → V → V) (s : HashTable K V) (p : V) :
    HashTable K V × List (node K V) :=
  let s1 := HashTable.Insert_update hash key_extractor_ reduce_function_ s p
  if s1.total_table_size_ > s1.max_table_size_ then
    HashTable.PopLargestSubtable_nodes s1
  else
    (s1, [])

/-- `Insert` (lines 101-181): the new state and the values pushed to `emit_`. -/
def HashTable.Insert (hash : K → Nat) (key_extractor_ : V → K)
    (reduce_function_ : V → V → V) (s : HashTable K V) (p : V) : HashTable K V × List V :=
  let s1 := HashTable.Insert_update hash key_extractor_ reduce_function_ s p
  if s1.total_table_size_ > s1.max_table_size_ then
    HashTable.PopLargestSubtable s1
  else
    (s1, [])

/-- The partition loop of `Flush` (lines 240-254): array, counters and visited nodes. -/
def flush_parts (buckets_per_part_ : Nat) (array_ : List (List (node K V)))
    (items_in_part_ : List Int) (num_partitions_ : Nat) :
    List (List (node K V)) × List Int × List (node K V) :=
  (List.range num_partitions_).foldl
    (fun (acc : List (List (node K V)) × List Int × List (node K V)) i =>
      let r := drain_buckets acc.1 (i * buckets_per_part_) buckets_per_part_
      (r.1, acc.2.1.set i 0, acc.2.2 ++ r.2))
    (array_, items_in_part_, [])

/-- The nodes and the state of `Flush` (lines 233-258). -/
def HashTable.Flush_nodes (s : HashTable K V) : HashTable K V × List (node K V) :=
  let r := flush_parts s.buckets_per_part_ s.array_ s.items_in_part_ s.num_partitions_
  ({ s with array_ := r.1, items_in_part_ := r.2.1, total_table_size_ := 0 }, r.2.2)

/-- `Flush` (lines 233-258): the new state and the values pushed to `emit_`. -/
def HashTable.Flush (s : HashTable K V) : HashTable K V × List V :=
  ((HashTable.Flush_nodes s).1, (HashTable.Flush_nodes s).2.map node.value)

/-- `Size` (lines 263-266). -/
def HashTable.Size (s : HashTable K V) : Int :=
  s.total_table_size_

/-- The nodes of partition `p`: its `b` buckets in increasing global index, each chain
from head to tail. -/
def part_nodes (array_ : List (List (node K V))) (b p : Nat) : List (node K V) :=
  (List.range b).flatMap (fun j => array_.getD (p * b + j) [])

/-- All resident entries: the chains of `array_[0]`, `array_[1]`, ... one after the other. -/
def HashTable.entries (s : HashTable K V) : List (node K V) :=
  s.array_.flatten

/-- The resident entries of key `k`, wherever in the table they are. -/
def HashTable.entries_of (s : HashTable K V) (k : K) : List (node K V) :=
  s.entries.filter (fun n => decide (n.key = k))

/-- The left fold of the reduce function over a segment of values, seeded with the first
one: `reduce(...reduce(reduce(v1, v2), v3)..., vn)`. -/
def fold_reduce (reduce_function_ : V → V → V) : List V → Option V
  | [] => none
  | v1 :: rest => some (rest.foldl reduce_function_ v1)

/-- Successive `Insert` calls, with everything they pushed to the sink. -/
def HashTable.Insert_all (hash : K → Nat) (key_extractor_ : V → K)
    (reduce_function_ : V → V → V) (s : HashTable K V) : List V → HashTable K V × List V
  | [] => (s, [])
  | p :: ps =>
    let r := HashTable.Insert hash key_extractor_ reduce_function_ s p
    let r2 := HashTable.Insert_all hash key_extractor_ reduce_function_ r.1 ps
    (r2.1, r.2 ++ r2.2)

/-- Successive `Insert` calls, with the nodes their spills drained. -/
def HashTable.Insert_all_nodes (hash : K → Nat) (key_extractor_ : V → K)
    (reduce_function_ : V → V → V) (s : HashTable K V) :
    List V → HashTable K V × List (node K V)
  | [] => (s, [])
  | p :: ps =>
    let r := HashTable.Insert_nodes hash key_extractor_ reduce_function_ s p
    let r2 := HashTable.Insert_all_nodes hash key_extractor_ reduce_function_ r.1 ps
    (r2.1, r.2 ++ r2.2)

/-- The spill check of line 177 fires in `Insert(p)`. -/
def HashTable.spills (hash : K → Nat) (key_extractor_ : V → K)
    (reduce_function_ : V → V → V) (s : HashTable K V) (p : V) : Bool :=
  decide ((HashTable.Insert_update hash key_extractor_ reduce_function_ s p).total_table_size_
    > (HashTable.Insert_update hash key_extractor_ reduce_function_ s p).max_table_size_)

/-- No `Insert` of the sequence spills. -/
def HashTable.no_spill (hash : K → Nat) (key_extractor_ : V → K)
    (reduce_function_ : V → V → V) (s : HashTable K V) : List V → Bool
  | [] => true
  | p :: ps =>
    !(HashTable.spills hash key_extractor_ reduce_function_ s p)
      && HashTable.no_spill hash key_extractor_ reduce_function_
          (HashTable.Insert hash key_extractor_ reduce_function_ s p).1 ps

/-- A call of a run that uses `Insert` and `Flush` only. -/
inductive call (V : Type) where
  | Insert (p : V)
  | Flush

/-- The bookkeeping of a run of `Insert` and `Flush` calls: the keys of the values
inserted so far; the number of `Insert` calls that linked a new node for a key that had
been inserted before (its earlier entry had left the table); the number of values pushed
by spills; the number of values pushed by `Flush`. -/
structure tally (K : Type) where
  keys : List K
  recreated : Nat
  evicted : Nat
  drained : Nat
deriving DecidableEq, Repr

/-- The number of distinct keys ever inserted. -/
def tally.distinct (t : tally K) : Nat :=
  t.keys.dedup.length

/-- The bookkeeping after `Insert(p)` called in state `s`. -/
def tally.Insert (hash : K → Nat) (key_extractor_ : V → K) (reduce_function_ : V → V → V)
    (s : HashTable K V) (t : tally K) (p : V) : tally K :=
  { keys := key_extractor_ p :: t.keys
    recreated := t.recreated
      + (if (s.entries_of (key_extractor_ p)).isEmpty = true ∧ key_extractor_ p ∈ t.keys
          then 1 else 0)
    evicted := t.evicted + (HashTable.Insert hash key_extractor_ reduce_function_ s p).2.length
    drained := t.drained }

/-- The bookkeeping after `Flush` called in state `s`. -/
def tally.Flush (s : HashTable K V) (t : tally K) : tally K :=
  { t with drained := t.drained + (HashTable.Flush s).2.length }

/-- A run of `Insert` and `Flush` calls with its bookkeeping. -/
def HashTable.run (hash : K → Nat) (key_extractor_ : V → K) (reduce_function_ : V → V → V) :
    HashTable K V → tally K → List (call V) → HashTable K V × tally K
  | s, t, [] => (s, t)
  | s, t, call.Insert p :: cs =>
    HashTable.run hash key_extractor_ reduce_function_
      (HashTable.Insert hash key_extractor_ reduce_function_ s p).1
      (tally.Insert hash key_extractor_ reduce_function_ s t p) cs
  | s, t, call.Flush :: cs =>
    HashTable.run hash key_extractor_ reduce_function_
      (HashTable.Flush s).1 (tally.Flush s t) cs

/-- The table holds for key `k` what folding the values `cur`, in this order, into one
entry gives: no entry of key `k` when `cur` is empty, else the single entry whose value is
the left fold of `cur`. -/
def Tracks (reduce_function_ : V → V → V) (s : HashTable K V) (k : K) (cur : List V) : Prop :=
  s.entries_of k
    = (fold_reduce reduce_function_ cur).toList.map (fun v => { key := k, value := v })

/-- The history of key `k` up to some point of a run: `hist` are the values inserted so
far and `trace` the nodes drained so far.  The values of key `k` inserted so far split
into consecutive segments, one per drained node of key `k`, whose value is the fold of the
segment, followed by the segment `cur` that is folded into the resident entry. -/
def Segmented (key_extractor_ : V → K) (reduce_function_ : V → V → V) (k : K)
    (hist : List V) (trace : List (node K V)) (s : HashTable K V) : Prop :=
  ∃ (segs : List (List V)) (cur : List V),
    segs.flatten ++ cur = hist.filter (fun v => decide (key_extractor_ v = k)) ∧
    List.Forall₂ (fun seg v => fold_reduce reduce_function_ seg = some v) segs
      ((trace.filter (fun n => decide (n.key = k))).map node.value) ∧
    Tracks reduce_function_ s k cur

/-- The representation invariant of a constructed table. -/
structure Inv (hash : K → Nat) (s : HashTable K V) : Prop where
  parts_pos : 1 ≤ s.num_partitions_
  parts_le : s.num_partitions_ ≤ num_buckets_
  bpp_eq : s.buckets_per_part_ = num_buckets_ / s.num_partitions_
  items_len : s.items_in_part_.length = s.num_partitions_
  array_len : s.array_.length = num_buckets_
  total_eq : s.total_table_size_ = s.items_in_part_.sum
  count_eq : ∀ p, p < s.num_partitions_ →
    s.items_in_part_.getD p 0 = ((part_nodes s.array_ s.buckets_per_part_ p).length : Int)
  tail_empty : ∀ g, s.num_partitions_ * s.buckets_per_part_ ≤ g → s.array_.getD g [] = []
  located : ∀ g, ∀ n ∈ s.array_.getD g [], (hash_result.of hash n.key s).global_index = g
  nodup : ∀ g, ((s.array_.getD g []).map node.key).Nodup

/-- The states a caller can reach: construct a table, then call the public operations
`Insert`, `PopLargestSubtable` and `Flush` in any order. -/
inductive Reachable (hash : K → Nat) (key_extractor_ : V → K) (reduce_function_ : V → V → V) :
    HashTable K V → Prop where
  | construct (max_table_size_ : Int) (partition_size : Nat) (s : HashTable K V) :
      HashTable.construct max_table_size_ partition_size = Except.ok s →
      Reachable hash key_extractor_ reduce_function_ s
  | Insert (s : HashTable K V) (p : V) :
      Reachable hash key_extractor_ reduce_function_ s →
      Reachable hash key_extractor_ reduce_function_
        (HashTable.Insert hash key_extractor_ reduce_function_ s p).1
  | PopLargestSubtable (s : HashTable K V) :
      Reachable hash key_extractor_ reduce_function_ s →
      Reachable hash key_extractor_ reduce_function_ (HashTable.PopLargestSubtable s).1
  | Flush (s : HashTable K V) :
      Reachable hash key_extractor_ reduce_function_ s →
      Reachable hash key_extractor_ reduce_function_ (HashTable.Flush s).1

end Operations

section Instance

/-- A concrete instantiation on which the theorems are evaluated: values are numbers, the
key of a value is its last decimal digit, the hash of a key is the key itself, and the
reduce function is `2 * resident + incoming`, which is neither commutative nor
associative. -/
def ex_hash (k : Nat) : Nat := k

/-- The key extractor of the concrete instantiation. -/
def ex_key (v : Nat) : Nat := v % 10

/-- The reduce function of the concrete instantiation. -/
def ex_reduce (a b : Nat) : Nat := 2 * a + b

/-- The table the constructor returns for `P` partitions (`1 ≤ P ≤ 100`). -/
def ex_table (max_table_size_ : Int) (P : Nat) : HashTable Nat Nat :=
  { max_table_size_ := max_table_size_
    num_partitions_ := P
    buckets_per_part_ := num_buckets_ / P
    items_in_part_ := List.replicate P 0
    total_table_size_ := 0
    array_ := List.replicate num_buckets_ [] }

/-- The state after `Insert` of 0, 10, 1, 2 and 3 into a fresh table of 3 partitions: the
fifth `Insert` spills partition 0. -/
def ex_state : HashTable Nat Nat :=
  (HashTable.Insert_all ex_hash ex_key ex_reduce (ex_table 3 3) [0, 10, 1, 2, 3]).1

end Instance

end c7a

namespace c7a
section ListFacts
variable {α β : Type}

theorem getD_set_eq (l : List α) (i j : Nat) (c d : α) :
    (l.set i c).getD j d = if i = j ∧ i < l.length then c else l.getD j d := by
  simp only [List.getD_eq_getElem?_getD, List.getElem?_set]
  by_cases hij : i = j
  · subst hij
    by_cases hl : i < l.length
    · simp [hl]
    · have : l[i]? = none := List.getElem?_eq_none (by omega)
      simp [hl, this]
  · simp [hij]

theorem flatMap_range_nil (n : Nat) (f : Nat → List β) (h : ∀ j, j < n → f j = []) :
    (List.range n).flatMap f = [] := by
  rw [List.flatMap_eq_nil_iff]
  intro j hj
  exact h j (List.mem_range.mp hj)

theorem flatMap_range_congr (n : Nat) (f g : Nat → List β) (h : ∀ j, j < n → f j = g j) :
    (List.range n).flatMap f = (List.range n).flatMap g := by
  induction n with
  | zero => rfl
  | succ n ih =>
    rw [List.range_succ, List.flatMap_append, List.flatMap_append, ih (fun j hj => h j (by omega))]
    simp [h n (by omega)]

theorem flatMap_range_single (n j0 : Nat) (f : Nat → List β) (hj0 : j0 < n)
    (h : ∀ j, j < n → j ≠ j0 → f j = []) : (List.range n).flatMap f = f j0 := by
  have hn : n = j0 + (1 + (n - j0 - 1)) := by omega
  rw [hn, List.range_add, List.flatMap_append, List.flatMap_map, List.range_add,
    List.flatMap_append, List.flatMap_map]
  rw [flatMap_range_nil j0 f (fun j hj => h j (by omega) (by omega))]
  rw [flatMap_range_nil (n - j0 - 1) _ (fun j hj => h _ (by omega) (by omega))]
  simp [List.range_succ]

theorem flatten_eq_flatMap_range (l : List (List β)) :
    l.flatten = (List.range l.length).flatMap (fun g => l.getD g []) := by
  induction l with
  | nil => rfl
  | cons c l ih =>
    rw [List.length_cons, List.range_succ_eq_map, List.flatMap_cons, List.flatMap_map,
      List.flatten_cons, ih]
    simp

theorem flatMap_range_mul (P b : Nat) (f : Nat → List β) :
    (List.range (P * b)).flatMap f
      = (List.range P).flatMap (fun p => (List.range b).flatMap (fun j => f (p * b + j))) := by
  induction P with
  | zero => simp
  | succ P ih =>
    rw [Nat.succ_mul, List.range_add, List.flatMap_append, ih, List.range_succ,
      List.flatMap_append, List.flatMap_map]
    simp

end ListFacts
end c7a

namespace c7a
section DrainFacts
variable {K V : Type}

theorem drain_buckets_length (n : Nat) : ∀ (arr : List (List (node K V))) (i : Nat),
    (drain_buckets arr i n).1.length = arr.length := by
  induction n with
  | zero => intro arr i; rfl
  | succ n ih =>
    intro arr i
    unfold drain_buckets
    split
    · exact ih arr (i + 1)
    · simp [ih]

theorem getD_ne_nil_lt (arr : List (List (node K V))) (i : Nat) (c : node K V)
    (cs : List (node K V)) (h : arr.getD i [] = c :: cs) : i < arr.length := by
  by_contra hge
  rw [List.getD_eq_default _ _ (by omega)] at h
  exact List.noConfusion h

theorem drain_buckets_getD (n : Nat) : ∀ (arr : List (List (node K V))) (i g : Nat),
    (drain_buckets arr i n).1.getD g [] = if i ≤ g ∧ g < i + n then [] else arr.getD g [] := by
  induction n with
  | zero =>
    intro arr i g
    rw [if_neg (by omega)]
    rfl
  | succ n ih =>
    intro arr i g
    unfold drain_buckets
    split
    · rename_i h0
      rw [ih arr (i + 1) g]
      by_cases hg : g = i
      · subst hg
        rw [if_neg (by omega), if_pos (by omega), h0]
      · split_ifs <;> first | rfl | (exfalso; omega)
    · rename_i c cs h0
      show (drain_buckets (arr.set i []) (i + 1) n).1.getD g [] = _
      have hlt := getD_ne_nil_lt arr i c cs h0
      rw [ih (arr.set i []) (i + 1) g, getD_set_eq]
      split_ifs <;> first | rfl | (exfalso; omega)

theorem drain_buckets_nodes (n : Nat) : ∀ (arr : List (List (node K V))) (i : Nat),
    (drain_buckets arr i n).2 = (List.range n).flatMap (fun j => arr.getD (i + j) []) := by
  induction n with
  | zero => intro arr i; rfl
  | succ n ih =>
    intro arr i
    rw [List.range_succ_eq_map, List.flatMap_cons, List.flatMap_map]
    unfold drain_buckets
    split
    · rename_i h0
      rw [ih arr (i + 1)]
      simp only [Nat.add_zero, h0, List.nil_append]
      apply flatMap_range_congr
      intro j _
      show arr.getD (i + 1 + j) [] = arr.getD (i + (j + 1)) []
      rw [show i + 1 + j = i + (j + 1) by omega]
    · rename_i c cs h0
      show (c :: cs) ++ (drain_buckets (arr.set i []) (i + 1) n).2 = _
      rw [ih (arr.set i []) (i + 1)]
      simp only [Nat.add_zero, h0]
      congr 1
      apply flatMap_range_congr
      intro j _
      show (arr.set i []).getD (i + 1 + j) [] = arr.getD (i + (j + 1)) []
      rw [getD_set_eq, if_neg (by omega), show i + 1 + j = i + (j + 1) by omega]

end DrainFacts
end c7a

namespace c7a
section LoopFacts
variable {K V : Type}

theorem largest_part_succ (items : List Int) (n : Nat) :
    largest_part items (n + 1)
      = if items.getD n 0 > (largest_part items n).1 then (items.getD n 0, n)
        else largest_part items n := by
  unfold largest_part
  rw [List.range_succ, List.foldl_append]
  rfl

theorem largest_part_spec (items : List Int) (n : Nat) :
    (∀ i, i < n → items.getD i 0 ≤ (largest_part items n).1) ∧
    (((largest_part items n).1 = 0 ∧ (largest_part items n).2 = 0) ∨
      (0 < (largest_part items n).1 ∧ (largest_part items n).2 < n ∧
        items.getD (largest_part items n).2 0 = (largest_part items n).1 ∧
        ∀ i, i < (largest_part items n).2 → items.getD i 0 < (largest_part items n).1)) := by
  induction n with
  | zero =>
    refine ⟨fun i hi => absurd hi (Nat.not_lt_zero i), Or.inl ⟨rfl, rfl⟩⟩
  | succ n ih =>
    obtain ⟨hle, hcase⟩ := ih
    rw [largest_part_succ]
    by_cases hgt : items.getD n 0 > (largest_part items n).1
    · rw [if_pos hgt]
      refine ⟨?_, Or.inr ⟨?_, Nat.lt_succ_self n, rfl, ?_⟩⟩
      · intro i hi
        by_cases hin : i = n
        · subst hin; exact le_refl _
        · exact le_trans (hle i (by omega)) (le_of_lt hgt)
      · rcases hcase with ⟨h0, _⟩ | ⟨hpos, _⟩
        · show 0 < items.getD n 0
          omega
        · show 0 < items.getD n 0
          omega
      · intro i hi
        exact lt_of_le_of_lt (hle i hi) hgt
    · rw [if_neg hgt]
      refine ⟨?_, ?_⟩
      · intro i hi
        by_cases hin : i = n
        · subst hin; exact not_lt.mp hgt
        · exact hle i (by omega)
      · rcases hcase with h0 | ⟨hpos, hlt, heq, hfirst⟩
        · exact Or.inl h0
        · exact Or.inr ⟨hpos, by omega, heq, hfirst⟩

theorem flush_parts_succ (b : Nat) (arr : List (List (node K V))) (items : List Int) (n : Nat) :
    flush_parts b arr items (n + 1)
      = ((drain_buckets (flush_parts b arr items n).1 (n * b) b).1,
          (flush_parts b arr items n).2.1.set n 0,
          (flush_parts b arr items n).2.2
            ++ (drain_buckets (flush_parts b arr items n).1 (n * b) b).2) := by
  unfold flush_parts
  rw [List.range_succ, List.foldl_append]
  rfl

theorem flush_parts_spec (b : Nat) (arr : List (List (node K V))) (items : List Int) (n : Nat) :
    (flush_parts b arr items n).1.length = arr.length ∧
    (∀ g, (flush_parts b arr items n).1.getD g [] = if g < n * b then [] else arr.getD g []) ∧
    (flush_parts b arr items n).2.1.length = items.length ∧
    (∀ i, (flush_parts b arr items n).2.1.getD i 0 = if i < n then 0 else items.getD i 0) ∧
    (flush_parts b arr items n).2.2
      = (List.range n).flatMap
          (fun p => (List.range b).flatMap (fun j => arr.getD (p * b + j) [])) := by
  induction n with
  | zero =>
    refine ⟨rfl, ?_, rfl, ?_, rfl⟩
    · intro g; rw [if_neg (by omega)]; rfl
    · intro i; rw [if_neg (by omega)]; rfl
  | succ n ih =>
    obtain ⟨hlen, hget, hilen, higet, hout⟩ := ih
    rw [flush_parts_succ]
    refine ⟨?_, ?_, ?_, ?_, ?_⟩
    · show (drain_buckets _ _ _).1.length = _
      rw [drain_buckets_length, hlen]
    · intro g
      show (drain_buckets _ _ _).1.getD g [] = _
      rw [drain_buckets_getD, hget, Nat.succ_mul]
      split_ifs <;> first | rfl | (exfalso; omega)
    · show (List.set _ _ _).length = _
      rw [List.length_set, hilen]
    · intro i
      show (List.set _ _ _).getD i 0 = _
      rw [getD_set_eq, higet]
      by_cases hin : n = i
      · subst hin
        by_cases hl : n < (flush_parts b arr items n).2.1.length
        · rw [if_pos ⟨rfl, hl⟩, if_pos (by omega)]
        · rw [if_neg (by tauto), if_neg (by omega), if_pos (by omega)]
          rw [List.getD_eq_default _ _ (by omega)]
      · rw [if_neg (by tauto)]
        split_ifs <;> first | rfl | (exfalso; omega)
    · show _ ++ (drain_buckets _ _ _).2 = _
      rw [hout, drain_buckets_nodes, List.range_succ, List.flatMap_append, List.flatMap_singleton]
      congr 1
      apply flatMap_range_congr
      intro j hj
      show (flush_parts b arr items n).1.getD (n * b + j) [] = _
      rw [hget, if_neg (by omega)]

end LoopFacts
end c7a

namespace c7a
section ScanFacts
variable {K V : Type} [DecidableEq K]

theorem scan_chain_none (rf : V → V → V) (key : K) (p : V) (c : List (node K V)) :
    scan_chain rf key p c = none ↔ ∀ n ∈ c, n.key ≠ key := by
  induction c with
  | nil => simp [scan_chain]
  | cons n rest ih =>
    unfold scan_chain
    by_cases hk : key = n.key
    · rw [if_pos hk]
      simp [hk]
    · rw [if_neg hk]
      simp only [Option.map_eq_none', ih, List.mem_cons, forall_eq_or_imp]
      constructor
      · intro h; exact ⟨fun e => hk e.symm, h⟩
      · intro h; exact h.2

theorem scan_chain_keys (rf : V → V → V) (key : K) (p : V) :
    ∀ (c c' : List (node K V)), scan_chain rf key p c = some c' →
      c'.map node.key = c.map node.key := by
  intro c
  induction c with
  | nil => intro c' h; simp [scan_chain] at h
  | cons n rest ih =>
    intro c' h
    unfold scan_chain at h
    by_cases hk : key = n.key
    · rw [if_pos hk] at h
      cases h
      rfl
    · rw [if_neg hk] at h
      cases hr : scan_chain rf key p rest with
      | none => rw [hr] at h; cases h
      | some r =>
        rw [hr] at h
        cases h
        simp [ih r hr]

theorem scan_chain_length (rf : V → V → V) (key : K) (p : V)
    (c c' : List (node K V)) (h : scan_chain rf key p c = some c') : c'.length = c.length := by
  have := congrArg List.length (scan_chain_keys rf key p c c' h)
  simpa using this

theorem scan_chain_filter_ne (rf : V → V → V) (key : K) (p : V) (k : K) (hk : k ≠ key) :
    ∀ (c c' : List (node K V)), scan_chain rf key p c = some c' →
      c'.filter (fun n => decide (n.key = k)) = c.filter (fun n => decide (n.key = k)) := by
  intro c
  induction c with
  | nil => intro c' h; simp [scan_chain] at h
  | cons n rest ih =>
    intro c' h
    unfold scan_chain at h
    by_cases hkn : key = n.key
    · rw [if_pos hkn] at h
      cases h
      have : n.key ≠ k := by rw [← hkn]; exact fun e => hk e.symm
      simp [List.filter_cons, this]
    · rw [if_neg hkn] at h
      cases hr : scan_chain rf key p rest with
      | none => rw [hr] at h; cases h
      | some r =>
        rw [hr] at h
        cases h
        simp [List.filter_cons, ih r hr]

theorem scan_chain_filter_eq (rf : V → V → V) (key : K) (p : V) :
    ∀ (c c' : List (node K V)), scan_chain rf key p c = some c' → (c.map node.key).Nodup →
      ∃ v, c.filter (fun n => decide (n.key = key)) = [{ key := key, value := v }] ∧
        c'.filter (fun n => decide (n.key = key)) = [{ key := key, value := rf v p }] := by
  intro c
  induction c with
  | nil => intro c' h; simp [scan_chain] at h
  | cons n rest ih =>
    intro c' h hnd
    rw [List.map_cons, List.nodup_cons] at hnd
    unfold scan_chain at h
    by_cases hkn : key = n.key
    · rw [if_pos hkn] at h
      cases h
      have hrest : rest.filter (fun m => decide (m.key = key)) = [] := by
        rw [List.filter_eq_nil_iff]
        intro m hm hmk
        apply hnd.1
        rw [← hkn, ← of_decide_eq_true hmk]
        exact List.mem_map_of_mem _ hm
      refine ⟨n.value, ?_, ?_⟩
      · rw [List.filter_cons, if_pos (by simp [hkn]), hrest, hkn]
      · rw [List.filter_cons, if_pos (by simp [hkn]), hrest, hkn]
    · rw [if_neg hkn] at h
      cases hr : scan_chain rf key p rest with
      | none => rw [hr] at h; cases h
      | some r =>
        rw [hr] at h
        cases h
        obtain ⟨v, h1, h2⟩ := ih r hr hnd.2
        have hne : ¬ n.key = key := fun e => hkn e.symm
        refine ⟨v, ?_, ?_⟩
        · rw [List.filter_cons, if_neg (by simp [hne]), h1]
        · rw [List.filter_cons, if_neg (by simp [hne]), h2]

end ScanFacts
end c7a

namespace c7a
section InvFacts
variable {K V : Type}

theorem sum_set_getD (l : List Int) : ∀ (i : Nat) (v : Int), i < l.length →
    (l.set i v).sum = l.sum - l.getD i 0 + v := by
  induction l with
  | nil => intro i v h; exact absurd h (Nat.not_lt_zero i)
  | cons a l ih =>
    intro i v h
    cases i with
    | zero =>
      rw [List.set_cons_zero, List.sum_cons, List.sum_cons, List.getD_cons_zero]
      omega
    | succ i =>
      rw [List.set_cons_succ, List.sum_cons, List.sum_cons, List.getD_cons_succ,
        ih i v (by simpa using h)]
      omega

theorem eq_replicate_of_getD {α : Type} (d : α) (l : List α) (h : ∀ i, l.getD i d = d) :
    l = List.replicate l.length d := by
  rw [List.eq_replicate_iff]
  refine ⟨rfl, ?_⟩
  intro b hb
  obtain ⟨i, hi, rfl⟩ := List.getElem_of_mem hb
  have := h i
  rw [List.getD_eq_getElem _ _ hi] at this
  exact this

theorem flatMap_range_split {β : Type} (n j0 : Nat) (f : Nat → List β) (h : j0 < n) :
    (List.range n).flatMap f
      = (List.range j0).flatMap f ++ f j0
          ++ (List.range (n - j0 - 1)).flatMap (fun j => f (j0 + 1 + j)) := by
  have hn : n = j0 + 1 + (n - j0 - 1) := by omega
  conv_lhs => rw [hn]
  rw [List.range_add, List.flatMap_append, List.flatMap_map, List.range_succ,
    List.flatMap_append, List.flatMap_singleton]

/-- What `hash_result` computes on a table with `1 ≤ P ≤ 100` and `b = 100 / P`. -/
theorem hash_result_bounds (hash : K → Nat) (s : HashTable K V) (hP1 : 1 ≤ s.num_partitions_)
    (hP2 : s.num_partitions_ ≤ num_buckets_)
    (hb : s.buckets_per_part_ = num_buckets_ / s.num_partitions_) (k : K) :
    (hash_result.of hash k s).partition_id < s.num_partitions_ ∧
    (hash_result.of hash k s).partition_offset < s.buckets_per_part_ ∧
    (hash_result.of hash k s).global_index
      = (hash_result.of hash k s).partition_id * s.buckets_per_part_
          + (hash_result.of hash k s).partition_offset ∧
    (hash_result.of hash k s).global_index < s.num_partitions_ * s.buckets_per_part_ ∧
    s.num_partitions_ * s.buckets_per_part_ ≤ num_buckets_ := by
  have hbpos : 0 < s.buckets_per_part_ := by
    rw [hb]; exact Nat.div_pos hP2 hP1
  have hpid : hash k % s.buckets_per_part_ % s.num_partitions_ < s.num_partitions_ :=
    Nat.mod_lt _ hP1
  have hoff : hash k % s.buckets_per_part_ < s.buckets_per_part_ := Nat.mod_lt _ hbpos
  have hmul : (hash k % s.buckets_per_part_ % s.num_partitions_ + 1) * s.buckets_per_part_
      ≤ s.num_partitions_ * s.buckets_per_part_ := Nat.mul_le_mul_right _ hpid
  rw [Nat.succ_mul] at hmul
  have hcap : s.num_partitions_ * s.buckets_per_part_ ≤ num_buckets_ := by
    rw [hb]; exact Nat.mul_div_le _ _
  simp only [hash_result.of]
  refine ⟨hpid, hoff, ?_, ?_, hcap⟩
  · omega
  · omega

variable [DecidableEq K]

/-- Both branches of `Insert` (empty bucket, non-empty bucket) as one case split on the
scan of the chain. -/
theorem Insert_update_eq (hash : K → Nat) (ke : V → K) (rf : V → V → V) (s : HashTable K V)
    (p : V) :
    HashTable.Insert_update hash ke rf s p
      = match scan_chain rf (ke p) p
          (s.array_.getD (hash_result.of hash (ke p) s).global_index []) with
        | some chain =>
          { s with array_ := s.array_.set (hash_result.of hash (ke p) s).global_index chain }
        | none =>
          { s with
            array_ := s.array_.set (hash_result.of hash (ke p) s).global_index
              ({ key := ke p, value := p }
                :: s.array_.getD (hash_result.of hash (ke p) s).global_index [])
            items_in_part_ := incr_at s.items_in_part_ (hash_result.of hash (ke p) s).partition_id
            total_table_size_ := s.total_table_size_ + 1 } := by
  unfold HashTable.Insert_update
  dsimp only
  cases hc : s.array_.getD (hash_result.of hash (ke p) s).global_index [] with
  | nil => rfl
  | cons n rest =>
    dsimp only

end InvFacts
end c7a

namespace c7a
section InvInsert
variable {K V : Type}

theorem bucket_index_inj (b q q2 j j2 : Nat) (hj : j < b) (hj2 : j2 < b)
    (h : q * b + j = q2 * b + j2) : q = q2 ∧ j = j2 := by
  rcases Nat.lt_trichotomy q q2 with hlt | heq | hgt
  · have := Nat.mul_le_mul_right b (Nat.succ_le_of_lt hlt)
    rw [Nat.succ_mul] at this
    omega
  · subst heq
    exact ⟨rfl, by omega⟩
  · have := Nat.mul_le_mul_right b (Nat.succ_le_of_lt hgt)
    rw [Nat.succ_mul] at this
    omega

theorem part_nodes_set_other (arr : List (List (node K V))) (b q g : Nat) (c : List (node K V))
    (h : ∀ j, j < b → q * b + j ≠ g) : part_nodes (arr.set g c) b q = part_nodes arr b q := by
  unfold part_nodes
  apply flatMap_range_congr
  intro j hj
  show (arr.set g c).getD (q * b + j) [] = arr.getD (q * b + j) []
  rw [getD_set_eq, if_neg (fun hc => h j hj hc.1.symm)]

theorem part_nodes_set_length (arr : List (List (node K V))) (b q off : Nat)
    (c : List (node K V)) (hoff : off < b) (hlt : q * b + off < arr.length) :
    (part_nodes (arr.set (q * b + off) c) b q).length + (arr.getD (q * b + off) []).length
      = (part_nodes arr b q).length + c.length := by
  unfold part_nodes
  rw [flatMap_range_split b off _ hoff, flatMap_range_split b off (fun j => arr.getD _ []) hoff]
  simp only [List.length_append]
  have h1 : (List.range off).flatMap (fun j => (arr.set (q * b + off) c).getD (q * b + j) [])
      = (List.range off).flatMap (fun j => arr.getD (q * b + j) []) := by
    apply flatMap_range_congr
    intro j hj
    show (arr.set _ c).getD (q * b + j) [] = arr.getD (q * b + j) []
    rw [getD_set_eq, if_neg (by omega)]
  have h2 : (List.range (b - off - 1)).flatMap
        (fun j => (arr.set (q * b + off) c).getD (q * b + (off + 1 + j)) [])
      = (List.range (b - off - 1)).flatMap (fun j => arr.getD (q * b + (off + 1 + j)) []) := by
    apply flatMap_range_congr
    intro j hj
    show (arr.set _ c).getD (q * b + (off + 1 + j)) [] = arr.getD (q * b + (off + 1 + j)) []
    rw [getD_set_eq, if_neg (by omega)]
  rw [h1, h2, getD_set_eq, if_pos ⟨rfl, hlt⟩]
  omega

theorem part_nodes_eq_nil (arr : List (List (node K V))) (b q : Nat)
    (h : ∀ j, j < b → arr.getD (q * b + j) [] = []) : part_nodes arr b q = [] :=
  flatMap_range_nil b _ h

theorem part_nodes_congr (arr arr2 : List (List (node K V))) (b q : Nat)
    (h : ∀ j, j < b → arr.getD (q * b + j) [] = arr2.getD (q * b + j) []) :
    part_nodes arr b q = part_nodes arr2 b q :=
  flatMap_range_congr b _ _ h

theorem incr_at_length (items : List Int) (i : Nat) : (incr_at items i).length = items.length := by
  unfold incr_at
  rw [List.length_set]

theorem incr_at_getD (items : List Int) (i j : Nat) (h : i < items.length) :
    (incr_at items i).getD j 0 = if i = j then items.getD j 0 + 1 else items.getD j 0 := by
  unfold incr_at
  rw [getD_set_eq]
  by_cases hij : i = j
  · subst hij; rw [if_pos ⟨rfl, h⟩, if_pos rfl]
  · rw [if_neg (fun hc => hij hc.1), if_neg hij]

theorem incr_at_sum (items : List Int) (i : Nat) (h : i < items.length) :
    (incr_at items i).sum = items.sum + 1 := by
  unfold incr_at
  rw [sum_set_getD _ _ _ h]
  omega

end InvInsert
end c7a

namespace c7a
section InvSteps
variable {K V : Type}

theorem construct_ok (thr : Int) (P : Nat) (s : HashTable K V)
    (h : HashTable.construct thr P = Except.ok s) :
    1 ≤ P ∧ P ≤ num_buckets_ ∧
    s = { max_table_size_ := thr
          num_partitions_ := P
          buckets_per_part_ := num_buckets_ / P
          items_in_part_ := List.replicate P 0
          total_table_size_ := 0
          array_ := List.replicate num_buckets_ [] } := by
  unfold HashTable.construct at h
  by_cases h1 : P > num_buckets_
  · rw [if_pos h1] at h; cases h
  · rw [if_neg h1] at h
    by_cases h0 : P = 0
    · rw [if_pos h0] at h; cases h
    · rw [if_neg h0] at h
      cases h
      exact ⟨by omega, by omega, rfl⟩

theorem getD_replicate_nil (n g : Nat) :
    (List.replicate n ([] : List (node K V))).getD g [] = [] := by
  rw [List.getD_eq_getElem?_getD, List.getElem?_replicate]
  split <;> rfl

theorem getD_replicate_zero (n g : Nat) : (List.replicate n (0 : Int)).getD g 0 = 0 := by
  rw [List.getD_eq_getElem?_getD, List.getElem?_replicate]
  split <;> rfl

theorem Inv_construct (hash : K → Nat) (thr : Int) (P : Nat) (s : HashTable K V)
    (h : HashTable.construct thr P = Except.ok s) : Inv hash s := by
  obtain ⟨h1, h2, rfl⟩ := construct_ok thr P s h
  refine ⟨h1, h2, rfl, ?_, ?_, ?_, ?_, ?_, ?_, ?_⟩
  · exact List.length_replicate _ _
  · exact List.length_replicate _ _
  · show (0 : Int) = (List.replicate P (0 : Int)).sum
    rw [List.sum_replicate]; simp
  · intro p _
    show (List.replicate P (0 : Int)).getD p 0 = _
    rw [getD_replicate_zero, part_nodes_eq_nil _ _ _ (fun j _ => getD_replicate_nil _ _)]
    rfl
  · intro g _
    exact getD_replicate_nil _ _
  · intro g n hn
    rw [show (List.replicate num_buckets_ ([] : List (node K V))).getD g [] = []
      from getD_replicate_nil _ _] at hn
    cases hn
  · intro g
    rw [show (List.replicate num_buckets_ ([] : List (node K V))).getD g [] = []
      from getD_replicate_nil _ _]
    exact List.nodup_nil

variable [DecidableEq K]

theorem Inv_Insert_update (hash : K → Nat) (ke : V → K) (rf : V → V → V) (s : HashTable K V)
    (p : V) (hi : Inv hash s) : Inv hash (HashTable.Insert_update hash ke rf s p) := by
  obtain ⟨hpid, hoff, hg, hglt, hcap⟩ :=
    hash_result_bounds hash s hi.parts_pos hi.parts_le hi.bpp_eq (ke p)
  have hgl : (hash_result.of hash (ke p) s).global_index < s.array_.length := by
    rw [hi.array_len]; omega
  have hpl : (hash_result.of hash (ke p) s).partition_id < s.items_in_part_.length := by
    rw [hi.items_len]; exact hpid
  rw [Insert_update_eq]
  cases hs : scan_chain rf (ke p) p
      (s.array_.getD (hash_result.of hash (ke p) s).global_index []) with
  | some c =>
    show Inv hash { s with
      array_ := s.array_.set (hash_result.of hash (ke p) s).global_index c }
    have hkeys := scan_chain_keys rf (ke p) p _ c hs
    have hlen := scan_chain_length rf (ke p) p _ c hs
    refine ⟨hi.parts_pos, hi.parts_le, hi.bpp_eq, hi.items_len, ?_, hi.total_eq, ?_, ?_, ?_, ?_⟩
    · show (List.set _ _ _).length = _
      rw [List.length_set]; exact hi.array_len
    · intro q (hq : q < s.num_partitions_)
      show s.items_in_part_.getD q 0
        = ((part_nodes (s.array_.set _ c) s.buckets_per_part_ q).length : Int)
      rw [hi.count_eq q hq]
      by_cases hqp : q = (hash_result.of hash (ke p) s).partition_id
      · have := part_nodes_set_length s.array_ s.buckets_per_part_ q
          (hash_result.of hash (ke p) s).partition_offset c hoff (by rw [hqp, ← hg]; exact hgl)
        rw [hqp, ← hg] at this
        rw [hqp]
        omega
      · rw [part_nodes_set_other]
        intro j hj he
        rw [hg] at he
        exact hqp (bucket_index_inj _ _ _ _ _ hj hoff he).1
    · intro g (hge : s.num_partitions_ * s.buckets_per_part_ ≤ g)
      show (s.array_.set _ c).getD g [] = []
      rw [getD_set_eq, if_neg (by omega)]
      exact hi.tail_empty g hge
    · intro g n hn
      show (hash_result.of hash n.key s).global_index = g
      have hn2 : n ∈ (s.array_.set (hash_result.of hash (ke p) s).global_index c).getD g [] := hn
      rw [getD_set_eq] at hn2
      by_cases hgg : (hash_result.of hash (ke p) s).global_index = g
      · rw [if_pos ⟨hgg, hgl⟩] at hn2
        have : n.key ∈ c.map node.key := List.mem_map_of_mem _ hn2
        rw [hkeys, List.mem_map] at this
        obtain ⟨m, hm, hmk⟩ := this
        rw [← hmk, ← hgg]
        exact hi.located _ m hm
      · rw [if_neg (fun hc => hgg hc.1)] at hn2
        exact hi.located g n hn2
    · intro g
      show (((s.array_.set _ c).getD g []).map node.key).Nodup
      rw [getD_set_eq]
      by_cases hgg : (hash_result.of hash (ke p) s).global_index = g
      · rw [if_pos ⟨hgg, hgl⟩, hkeys]
        exact hi.nodup _
      · rw [if_neg (fun hc => hgg hc.1)]
        exact hi.nodup g
  | none =>
    show Inv hash { s with
      array_ := s.array_.set (hash_result.of hash (ke p) s).global_index
        ({ key := ke p, value := p }
          :: s.array_.getD (hash_result.of hash (ke p) s).global_index [])
      items_in_part_ := incr_at s.items_in_part_ (hash_result.of hash (ke p) s).partition_id
      total_table_size_ := s.total_table_size_ + 1 }
    have hnone := (scan_chain_none rf (ke p) p _).mp hs
    refine ⟨hi.parts_pos, hi.parts_le, hi.bpp_eq, ?_, ?_, ?_, ?_, ?_, ?_, ?_⟩
    · show (incr_at _ _).length = _
      rw [incr_at_length]; exact hi.items_len
    · show (List.set _ _ _).length = _
      rw [List.length_set]; exact hi.array_len
    · show s.total_table_size_ + 1 = (incr_at _ _).sum
      rw [incr_at_sum _ _ hpl, hi.total_eq]
    · intro q (hq : q < s.num_partitions_)
      show (incr_at s.items_in_part_ _).getD q 0
        = ((part_nodes (s.array_.set _ _) s.buckets_per_part_ q).length : Int)
      rw [incr_at_getD _ _ _ hpl, hi.count_eq q hq]
      by_cases hqp : (hash_result.of hash (ke p) s).partition_id = q
      · have := part_nodes_set_length s.array_ s.buckets_per_part_ q
          (hash_result.of hash (ke p) s).partition_offset
          ({ key := ke p, value := p }
            :: s.array_.getD (hash_result.of hash (ke p) s).global_index [])
          hoff (by rw [← hqp, ← hg]; exact hgl)
        rw [← hqp, ← hg] at this
        rw [if_pos hqp, ← hqp]
        rw [List.length_cons] at this
        omega
      · rw [if_neg hqp, part_nodes_set_other]
        intro j hj he
        rw [hg] at he
        exact hqp (bucket_index_inj _ _ _ _ _ hj hoff he).1.symm
    · intro g (hge : s.num_partitions_ * s.buckets_per_part_ ≤ g)
      show (s.array_.set _ _).getD g [] = []
      rw [getD_set_eq, if_neg (by omega)]
      exact hi.tail_empty g hge
    · intro g n hn
      show (hash_result.of hash n.key s).global_index = g
      have hn2 : n ∈ (s.array_.set (hash_result.of hash (ke p) s).global_index
          ({ key := ke p, value := p }
            :: s.array_.getD (hash_result.of hash (ke p) s).global_index [])).getD g [] := hn
      rw [getD_set_eq] at hn2
      by_cases hgg : (hash_result.of hash (ke p) s).global_index = g
      · rw [if_pos ⟨hgg, hgl⟩, List.mem_cons] at hn2
        rcases hn2 with rfl | hm
        · exact hgg
        · rw [← hgg]; exact hi.located _ n hm
      · rw [if_neg (fun hc => hgg hc.1)] at hn2
        exact hi.located g n hn2
    · intro g
      show (((s.array_.set _ _).getD g []).map node.key).Nodup
      rw [getD_set_eq]
      by_cases hgg : (hash_result.of hash (ke p) s).global_index = g
      · rw [if_pos ⟨hgg, hgl⟩, List.map_cons, List.nodup_cons]
        refine ⟨?_, hi.nodup _⟩
        intro hmem
        rw [List.mem_map] at hmem
        obtain ⟨m, hm, hmk⟩ := hmem
        exact hnone m hm hmk
      · rw [if_neg (fun hc => hgg hc.1)]
        exact hi.nodup g

end InvSteps
end c7a

namespace c7a
section InvPop
variable {K V : Type}

/-- On a table satisfying the invariant the selected partition exists and `p_size_max` is
its counter. -/
theorem largest_part_Inv (hash : K → Nat) (s : HashTable K V) (hi : Inv hash s) :
    (largest_part s.items_in_part_ s.num_partitions_).2 < s.num_partitions_ ∧
    s.items_in_part_.getD (largest_part s.items_in_part_ s.num_partitions_).2 0
      = (largest_part s.items_in_part_ s.num_partitions_).1 := by
  obtain ⟨hle, hcase⟩ := largest_part_spec s.items_in_part_ s.num_partitions_
  rcases hcase with ⟨h0, hidx⟩ | ⟨_, hlt, heq, _⟩
  · have hP := hi.parts_pos
    rw [hidx, h0]
    refine ⟨by omega, ?_⟩
    have h1 := hle 0 (by omega)
    have h2 := hi.count_eq 0 (by omega)
    rw [h0] at h1
    omega
  · exact ⟨hlt, heq⟩

theorem Inv_PopLargestSubtable (hash : K → Nat) (s : HashTable K V) (hi : Inv hash s) :
    Inv hash (HashTable.PopLargestSubtable s).1 := by
  obtain ⟨hidx, hsz⟩ := largest_part_Inv hash s hi
  have hil : (largest_part s.items_in_part_ s.num_partitions_).2 < s.items_in_part_.length := by
    rw [hi.items_len]; exact hidx
  show Inv hash { s with
    array_ := (drain_buckets s.array_
      ((largest_part s.items_in_part_ s.num_partitions_).2 * s.buckets_per_part_)
      s.buckets_per_part_).1
    items_in_part_ := s.items_in_part_.set (largest_part s.items_in_part_ s.num_partitions_).2 0
    total_table_size_ :=
      s.total_table_size_ - (largest_part s.items_in_part_ s.num_partitions_).1 }
  refine ⟨hi.parts_pos, hi.parts_le, hi.bpp_eq, ?_, ?_, ?_, ?_, ?_, ?_, ?_⟩
  · show (List.set _ _ _).length = _
    rw [List.length_set]; exact hi.items_len
  · show (drain_buckets _ _ _).1.length = _
    rw [drain_buckets_length]; exact hi.array_len
  · show s.total_table_size_ - _ = (List.set _ _ _).sum
    rw [sum_set_getD _ _ _ hil, hsz, hi.total_eq]
    omega
  · intro q (hq : q < s.num_partitions_)
    show (s.items_in_part_.set _ 0).getD q 0
      = ((part_nodes (drain_buckets s.array_ _ _).1 s.buckets_per_part_ q).length : Int)
    rw [getD_set_eq]
    by_cases hqi : (largest_part s.items_in_part_ s.num_partitions_).2 = q
    · rw [if_pos ⟨hqi, hil⟩, part_nodes_eq_nil]
      · rfl
      · intro j hj
        rw [drain_buckets_getD, if_pos (by rw [hqi]; omega)]
    · rw [if_neg (fun hc => hqi hc.1), hi.count_eq q hq]
      congr 2
      apply part_nodes_congr
      intro j hj
      rw [drain_buckets_getD, if_neg]
      intro hc
      have h1 : q * s.buckets_per_part_ + j
          = (largest_part s.items_in_part_ s.num_partitions_).2 * s.buckets_per_part_
            + (q * s.buckets_per_part_ + j
              - (largest_part s.items_in_part_ s.num_partitions_).2 * s.buckets_per_part_) := by
        omega
      exact hqi (bucket_index_inj _ _ _ _ _ hj (by omega) h1).1.symm
  · intro g (hge : s.num_partitions_ * s.buckets_per_part_ ≤ g)
    show (drain_buckets s.array_ _ _).1.getD g [] = []
    rw [drain_buckets_getD]
    split
    · rfl
    · exact hi.tail_empty g hge
  · intro g n hn
    show (hash_result.of hash n.key s).global_index = g
    have hn2 : n ∈ (drain_buckets s.array_
      ((largest_part s.items_in_part_ s.num_partitions_).2 * s.buckets_per_part_)
      s.buckets_per_part_).1.getD g [] := hn
    rw [drain_buckets_getD] at hn2
    split at hn2
    · cases hn2
    · exact hi.located g n hn2
  · intro g
    show (((drain_buckets s.array_ _ _).1.getD g []).map node.key).Nodup
    rw [drain_buckets_getD]
    split
    · exact List.nodup_nil
    · exact hi.nodup g

/-- `Flush` leaves every chain empty, `P` zero counters and a zero total. -/
theorem Flush_state (hash : K → Nat) (s : HashTable K V) (hi : Inv hash s) :
    (HashTable.Flush s).1
      = { s with
          array_ := List.replicate num_buckets_ []
          items_in_part_ := List.replicate s.num_partitions_ 0
          total_table_size_ := 0 } := by
  obtain ⟨hlen, hget, hilen, higet, _⟩ :=
    flush_parts_spec s.buckets_per_part_ s.array_ s.items_in_part_ s.num_partitions_
  have harr : (flush_parts s.buckets_per_part_ s.array_ s.items_in_part_ s.num_partitions_).1
      = List.replicate num_buckets_ [] := by
    have h := eq_replicate_of_getD []
      (flush_parts s.buckets_per_part_ s.array_ s.items_in_part_ s.num_partitions_).1 (by
        intro g
        rw [hget]
        split
        · rfl
        · exact hi.tail_empty g (by omega))
    rw [hlen, hi.array_len] at h
    exact h
  have hitems : (flush_parts s.buckets_per_part_ s.array_ s.items_in_part_ s.num_partitions_).2.1
      = List.replicate s.num_partitions_ 0 := by
    have h := eq_replicate_of_getD 0
      (flush_parts s.buckets_per_part_ s.array_ s.items_in_part_ s.num_partitions_).2.1 (by
        intro i
        rw [higet]
        split
        · rfl
        · exact List.getD_eq_default _ _ (by rw [hi.items_len]; omega))
    rw [hilen, hi.items_len] at h
    exact h
  show ({ s with
    array_ := (flush_parts s.buckets_per_part_ s.array_ s.items_in_part_ s.num_partitions_).1
    items_in_part_ :=
      (flush_parts s.buckets_per_part_ s.array_ s.items_in_part_ s.num_partitions_).2.1
    total_table_size_ := 0 } : HashTable K V) = _
  rw [harr, hitems]

theorem Flush_eq_construct (hash : K → Nat) (s : HashTable K V) (hi : Inv hash s) :
    HashTable.construct s.max_table_size_ s.num_partitions_ = Except.ok (HashTable.Flush s).1 := by
  rw [Flush_state hash s hi]
  unfold HashTable.construct
  rw [if_neg (by have := hi.parts_le; omega), if_neg (by have := hi.parts_pos; omega), hi.bpp_eq]

theorem Inv_Flush (hash : K → Nat) (s : HashTable K V) (hi : Inv hash s) :
    Inv hash (HashTable.Flush s).1 :=
  Inv_construct hash _ _ _ (Flush_eq_construct hash s hi)

variable [DecidableEq K]

theorem Inv_Insert (hash : K → Nat) (ke : V → K) (rf : V → V → V) (s : HashTable K V) (p : V)
    (hi : Inv hash s) : Inv hash (HashTable.Insert hash ke rf s p).1 := by
  unfold HashTable.Insert
  dsimp only
  split
  · exact Inv_PopLargestSubtable hash _ (Inv_Insert_update hash ke rf s p hi)
  · exact Inv_Insert_update hash ke rf s p hi

theorem Reachable_Inv (hash : K → Nat) (ke : V → K) (rf : V → V → V) (s : HashTable K V)
    (h : Reachable hash ke rf s) : Inv hash s := by
  induction h with
  | construct thr P s hc => exact Inv_construct hash thr P s hc
  | Insert s p _ ih => exact Inv_Insert hash ke rf s p ih
  | PopLargestSubtable s _ ih => exact Inv_PopLargestSubtable hash s ih
  | Flush s _ ih => exact Inv_Flush hash s ih

end InvPop
end c7a

namespace c7a
section Claims
variable {K V : Type}

/-- C7: the constructor throws `invalid_argument` whenever the partition count exceeds the
capacity 100, and for every `P` with `1 ≤ P ≤ 100` (so also `P = 100`) it returns a table
with `P` partitions, `buckets_per_part_ = 100 / P`, `P` counters all zero, `Size() = 0`
and 100 empty chains. -/
theorem construct_spec (K V : Type) (max_table_size_ : Int) (P : Nat) :
    (100 < P →
      (HashTable.construct max_table_size_ P : Except construct_error (HashTable K V))
        = Except.error construct_error.invalid_argument) ∧
    (1 ≤ P → P ≤ 100 →
      ∃ s : HashTable K V, HashTable.construct max_table_size_ P = Except.ok s ∧
        s.num_partitions_ = P ∧ s.buckets_per_part_ = 100 / P ∧
        s.items_in_part_ = List.replicate P 0 ∧ s.Size = 0 ∧
        s.array_ = List.replicate 100 [] ∧ s.max_table_size_ = max_table_size_) := by
  constructor
  · intro h
    unfold HashTable.construct
    rw [if_pos (show P > num_buckets_ from h)]
  · intro h1 h2
    refine ⟨{ max_table_size_ := max_table_size_
              num_partitions_ := P
              buckets_per_part_ := num_buckets_ / P
              items_in_part_ := List.replicate P 0
              total_table_size_ := 0
              array_ := List.replicate num_buckets_ [] }, ?_, rfl, rfl, rfl, rfl, rfl, rfl⟩
    unfold HashTable.construct
    rw [if_neg (show ¬ P > num_buckets_ from Nat.not_lt.mpr h2), if_neg (by omega)]

theorem construct_spec_witness :
    (HashTable.new 101 : Except construct_error (HashTable Nat Nat))
        = Except.error construct_error.invalid_argument ∧
    ∃ s : HashTable Nat Nat, HashTable.new 100 = Except.ok s ∧
        s.num_partitions_ = 100 ∧ s.buckets_per_part_ = 100 / 100 ∧
        s.items_in_part_ = List.replicate 100 0 ∧ s.Size = 0 ∧
        s.array_ = List.replicate 100 [] ∧ s.max_table_size_ = 3 :=
  ⟨(construct_spec Nat Nat 3 101).1 (by decide),
    (construct_spec Nat Nat 3 100).2 (by decide) (by decide)⟩

/-- C8 (the code does not do this): with `partition_size = 0` the guard of line 81 is false,
no `invalid_argument` is thrown, and the constructor goes on to line 86, which divides
`num_buckets_` by zero. -/
theorem construct_zero (K V : Type) (max_table_size_ : Int) :
    (HashTable.construct max_table_size_ 0 : Except construct_error (HashTable K V))
        = Except.error construct_error.division_by_zero ∧
    (HashTable.construct max_table_size_ 0 : Except construct_error (HashTable K V))
        ≠ Except.error construct_error.invalid_argument := by
  constructor
  · rfl
  · intro h
    cases h

variable [DecidableEq K]

/-- C10: in every state reachable from a constructed table by `Insert`,
`PopLargestSubtable` and `Flush`, `Size()` is the sum of the `P` per-partition counters. -/
theorem Size_eq_sum_items (hash : K → Nat) (key_extractor_ : V → K)
    (reduce_function_ : V → V → V) (s : HashTable K V)
    (h : Reachable hash key_extractor_ reduce_function_ s) :
    s.items_in_part_.length = s.num_partitions_ ∧ s.Size = s.items_in_part_.sum :=
  ⟨(Reachable_Inv hash key_extractor_ reduce_function_ s h).items_len,
    (Reachable_Inv hash key_extractor_ reduce_function_ s h).total_eq⟩

end Claims
end c7a

namespace c7a
section FlushClaims
variable {K V : Type}

theorem Inv_capacity (hash : K → Nat) (s : HashTable K V) (hi : Inv hash s) :
    0 < s.buckets_per_part_ ∧ s.num_partitions_ * s.buckets_per_part_ ≤ num_buckets_ := by
  rw [hi.bpp_eq]
  exact ⟨Nat.div_pos hi.parts_le hi.parts_pos, Nat.mul_div_le _ _⟩

theorem Flush_nodes_eq (s : HashTable K V) :
    (HashTable.Flush_nodes s).2
      = (List.range s.num_partitions_).flatMap
          (fun p => part_nodes s.array_ s.buckets_per_part_ p) :=
  (flush_parts_spec s.buckets_per_part_ s.array_ s.items_in_part_ s.num_partitions_).2.2.2.2

theorem entries_eq_parts (hash : K → Nat) (s : HashTable K V) (hi : Inv hash s) :
    s.entries
      = (List.range s.num_partitions_).flatMap
          (fun p => part_nodes s.array_ s.buckets_per_part_ p) := by
  obtain ⟨_, hcap⟩ := Inv_capacity hash s hi
  have hsplit : (List.range num_buckets_).flatMap (fun g => s.array_.getD g [])
      = (List.range (s.num_partitions_ * s.buckets_per_part_)).flatMap
          (fun g => s.array_.getD g []) := by
    have hnb : num_buckets_ = s.num_partitions_ * s.buckets_per_part_
        + (num_buckets_ - s.num_partitions_ * s.buckets_per_part_) := by omega
    conv_lhs => rw [hnb, List.range_add, List.flatMap_append, List.flatMap_map]
    rw [flatMap_range_nil (num_buckets_ - s.num_partitions_ * s.buckets_per_part_) _
      (fun j _ => hi.tail_empty _ (Nat.le_add_right _ j)), List.append_nil]
  unfold HashTable.entries part_nodes
  rw [flatten_eq_flatMap_range, hi.array_len, hsplit, flatMap_range_mul]

variable [DecidableEq K]

/-- C3: in every reachable state `Flush` pushes the values of all resident entries, each
once: the pushed sequence is the chains of `array_[0..99]` one after the other, and it is
the concatenation over the partitions `0 .. P-1` in increasing index, within a partition
over its buckets `p*b .. p*b + b - 1` in increasing index, of each chain from head to
tail. -/
theorem Flush_pushes_resident (hash : K → Nat) (key_extractor_ : V → K)
    (reduce_function_ : V → V → V) (s : HashTable K V)
    (h : Reachable hash key_extractor_ reduce_function_ s) :
    (HashTable.Flush s).2 = s.array_.flatten.map node.value ∧
    (HashTable.Flush s).2
      = (List.range s.num_partitions_).flatMap (fun p =>
          (List.range s.buckets_per_part_).flatMap (fun j =>
            (s.array_.getD (p * s.buckets_per_part_ + j) []).map node.value)) := by
  have hi := Reachable_Inv hash key_extractor_ reduce_function_ s h
  have hf : (HashTable.Flush s).2
      = ((List.range s.num_partitions_).flatMap
          (fun p => part_nodes s.array_ s.buckets_per_part_ p)).map node.value := by
    show (HashTable.Flush_nodes s).2.map node.value = _
    rw [Flush_nodes_eq]
  constructor
  · rw [hf, ← entries_eq_parts hash s hi]
    rfl
  · rw [hf, List.map_flatMap]
    apply flatMap_range_congr
    intro p _
    show (part_nodes s.array_ s.buckets_per_part_ p).map node.value = _
    unfold part_nodes
    rw [List.map_flatMap]

/-- C4: in every reachable state with `P` partitions, the state after `Flush` is the state
of a freshly constructed table with the same `P`: `Size() = 0`, the `P` counters are 0 and
all 100 chains are empty; a second `Flush` pushes nothing. -/
theorem Flush_resets (hash : K → Nat) (key_extractor_ : V → K)
    (reduce_function_ : V → V → V) (s : HashTable K V)
    (h : Reachable hash key_extractor_ reduce_function_ s) :
    1 ≤ s.num_partitions_ ∧ s.num_partitions_ ≤ 100 ∧
    HashTable.construct s.max_table_size_ s.num_partitions_ = Except.ok (HashTable.Flush s).1 ∧
    (HashTable.Flush s).1.Size = 0 ∧
    (HashTable.Flush s).1.items_in_part_ = List.replicate s.num_partitions_ 0 ∧
    (HashTable.Flush s).1.array_ = List.replicate 100 [] ∧
    (HashTable.Flush (HashTable.Flush s).1).2 = [] ∧
    (HashTable.Flush (HashTable.Flush s).1).1 = (HashTable.Flush s).1 := by
  have hi := Reachable_Inv hash key_extractor_ reduce_function_ s h
  have hst := Flush_state hash s hi
  have hi2 := Inv_Flush hash s hi
  refine ⟨hi.parts_pos, hi.parts_le, Flush_eq_construct hash s hi, ?_, ?_, ?_, ?_, ?_⟩
  · rw [hst]; rfl
  · rw [hst]
  · rw [hst]; rfl
  · show (HashTable.Flush_nodes (HashTable.Flush s).1).2.map node.value = []
    rw [Flush_nodes_eq, ← entries_eq_parts hash _ hi2, hst]
    show ((List.replicate num_buckets_ ([] : List (node K V))).flatten).map node.value = []
    simp
  · rw [Flush_state hash _ hi2, hst]

end FlushClaims
end c7a

namespace c7a
section Witnesses

theorem Reachable_Insert_all {K V : Type} [DecidableEq K] (hash : K → Nat) (ke : V → K)
    (rf : V → V → V) (vs : List V) : ∀ (s : HashTable K V), Reachable hash ke rf s →
      Reachable hash ke rf (HashTable.Insert_all hash ke rf s vs).1 := by
  induction vs with
  | nil => intro s h; exact h
  | cons v vs ih =>
    intro s h
    exact ih _ (Reachable.Insert s v h)

theorem ex_table_reachable (thr : Int) (P : Nat) (h1 : 1 ≤ P) (h2 : P ≤ 100) :
    Reachable ex_hash ex_key ex_reduce (ex_table thr P) := by
  apply Reachable.construct thr P
  unfold HashTable.construct
  rw [if_neg (show ¬ P > num_buckets_ from Nat.not_lt.mpr h2), if_neg (by omega)]
  rfl

theorem Size_eq_sum_items_witness :
    (HashTable.Insert_all ex_hash ex_key ex_reduce (ex_table 3 3)
        [0, 10, 1, 2, 3]).1.items_in_part_.length
      = (HashTable.Insert_all ex_hash ex_key ex_reduce (ex_table 3 3)
        [0, 10, 1, 2, 3]).1.num_partitions_ ∧
    (HashTable.Insert_all ex_hash ex_key ex_reduce (ex_table 3 3) [0, 10, 1, 2, 3]).1.Size
      = (HashTable.Insert_all ex_hash ex_key ex_reduce (ex_table 3 3)
        [0, 10, 1, 2, 3]).1.items_in_part_.sum :=
  Size_eq_sum_items ex_hash ex_key ex_reduce _
    (Reachable_Insert_all _ _ _ _ _ (ex_table_reachable 3 3 (by decide) (by decide)))

end Witnesses
end c7a

namespace c7a
section PopClaims
variable {K V : Type} [DecidableEq K]

/-- C5: in every reachable state in which some partition counter is positive,
`PopLargestSubtable` empties one partition, `p_idx`: its counter is maximal, every
partition of lower index has a strictly smaller counter, it held entries before and all
its buckets are empty and its counter 0 afterwards; the chain of every bucket outside that
partition and the counter of every other partition are unchanged. -/
theorem PopLargestSubtable_empties_largest (hash : K → Nat) (key_extractor_ : V → K)
    (reduce_function_ : V → V → V) (s : HashTable K V)
    (h : Reachable hash key_extractor_ reduce_function_ s)
    (hpos : ∃ p, p < s.num_partitions_ ∧ 0 < s.items_in_part_.getD p 0) :
    s.p_idx < s.num_partitions_ ∧
    (∀ q, q < s.num_partitions_ → s.items_in_part_.getD q 0 ≤ s.items_in_part_.getD s.p_idx 0) ∧
    (∀ q, q < s.p_idx → s.items_in_part_.getD q 0 < s.items_in_part_.getD s.p_idx 0) ∧
    part_nodes s.array_ s.buckets_per_part_ s.p_idx ≠ [] ∧
    (∀ g, s.p_idx * s.buckets_per_part_ ≤ g →
      g < s.p_idx * s.buckets_per_part_ + s.buckets_per_part_ →
      (HashTable.PopLargestSubtable s).1.array_.getD g [] = []) ∧
    (HashTable.PopLargestSubtable s).1.items_in_part_.getD s.p_idx 0 = 0 ∧
    (∀ g, ¬ (s.p_idx * s.buckets_per_part_ ≤ g ∧
        g < s.p_idx * s.buckets_per_part_ + s.buckets_per_part_) →
      (HashTable.PopLargestSubtable s).1.array_.getD g [] = s.array_.getD g []) ∧
    (∀ q, q ≠ s.p_idx →
      (HashTable.PopLargestSubtable s).1.items_in_part_.getD q 0
        = s.items_in_part_.getD q 0) ∧
    (HashTable.PopLargestSubtable s).1.array_.length = s.array_.length ∧
    (HashTable.PopLargestSubtable s).1.items_in_part_.length = s.items_in_part_.length := by
  have hi := Reachable_Inv hash key_extractor_ reduce_function_ s h
  obtain ⟨hidx, hsz⟩ := largest_part_Inv hash s hi
  obtain ⟨hle, hcase⟩ := largest_part_spec s.items_in_part_ s.num_partitions_
  have hil : s.p_idx < s.items_in_part_.length := by rw [hi.items_len]; exact hidx
  obtain ⟨p, hp, hpp⟩ := hpos
  have hmpos : 0 < (largest_part s.items_in_part_ s.num_partitions_).1 :=
    lt_of_lt_of_le hpp (hle p hp)
  have hfirst : ∀ q, q < s.p_idx →
      s.items_in_part_.getD q 0 < (largest_part s.items_in_part_ s.num_partitions_).1 := by
    rcases hcase with ⟨h0, _⟩ | ⟨_, _, _, hf⟩
    · omega
    · exact hf
  refine ⟨hidx, ?_, ?_, ?_, ?_, ?_, ?_, ?_, ?_, ?_⟩
  · intro q hq
    show _ ≤ s.items_in_part_.getD (largest_part s.items_in_part_ s.num_partitions_).2 0
    rw [hsz]; exact hle q hq
  · intro q hq
    show _ < s.items_in_part_.getD (largest_part s.items_in_part_ s.num_partitions_).2 0
    rw [hsz]; exact hfirst q hq
  · intro hnil
    have hc := hi.count_eq s.p_idx hidx
    rw [hnil] at hc
    have hsz2 : s.items_in_part_.getD s.p_idx 0
        = (largest_part s.items_in_part_ s.num_partitions_).1 := hsz
    rw [hsz2] at hc
    rw [hc] at hmpos
    exact absurd hmpos (lt_irrefl (0 : Int))
  · intro g h1 h2
    show (drain_buckets s.array_ (s.p_idx * s.buckets_per_part_) s.buckets_per_part_).1.getD g []
      = []
    rw [drain_buckets_getD, if_pos ⟨h1, h2⟩]
  · show (s.items_in_part_.set s.p_idx 0).getD s.p_idx 0 = 0
    rw [getD_set_eq, if_pos ⟨rfl, hil⟩]
  · intro g hg
    show (drain_buckets s.array_ (s.p_idx * s.buckets_per_part_) s.buckets_per_part_).1.getD g []
      = _
    rw [drain_buckets_getD, if_neg hg]
  · intro q hq
    show (s.items_in_part_.set s.p_idx 0).getD q 0 = _
    rw [getD_set_eq, if_neg (fun hc => hq hc.1.symm)]
  · show (drain_buckets s.array_ _ _).1.length = _
    rw [drain_buckets_length]
  · show (s.items_in_part_.set s.p_idx 0).length = _
    rw [List.length_set]

/-- C6: in every reachable state `PopLargestSubtable` pushes the values resident in the
selected partition `p_idx`, bucket by bucket in increasing global index and each chain
from head to tail; afterwards the counter of `p_idx` is 0 and `Size()` has gone down by
the counter's value before the drain, which is the number of values pushed. -/
theorem PopLargestSubtable_pushes_partition (hash : K → Nat) (key_extractor_ : V → K)
    (reduce_function_ : V → V → V) (s : HashTable K V)
    (h : Reachable hash key_extractor_ reduce_function_ s) :
    (HashTable.PopLargestSubtable s).2
      = (List.range s.buckets_per_part_).flatMap (fun j =>
          (s.array_.getD (s.p_idx * s.buckets_per_part_ + j) []).map node.value) ∧
    (HashTable.PopLargestSubtable s).1.items_in_part_.getD s.p_idx 0 = 0 ∧
    (HashTable.PopLargestSubtable s).1.Size = s.Size - s.items_in_part_.getD s.p_idx 0 ∧
    s.items_in_part_.getD s.p_idx 0 = ((HashTable.PopLargestSubtable s).2.length : Int) := by
  have hi := Reachable_Inv hash key_extractor_ reduce_function_ s h
  obtain ⟨hidx, hsz⟩ := largest_part_Inv hash s hi
  have hil : s.p_idx < s.items_in_part_.length := by rw [hi.items_len]; exact hidx
  have hpush : (HashTable.PopLargestSubtable s).2
      = (part_nodes s.array_ s.buckets_per_part_ s.p_idx).map node.value := by
    show (drain_buckets s.array_ (s.p_idx * s.buckets_per_part_)
      s.buckets_per_part_).2.map node.value = _
    rw [drain_buckets_nodes]
    rfl
  refine ⟨?_, ?_, ?_, ?_⟩
  · rw [hpush]
    unfold part_nodes
    rw [List.map_flatMap]
  · show (s.items_in_part_.set s.p_idx 0).getD s.p_idx 0 = 0
    rw [getD_set_eq, if_pos ⟨rfl, hil⟩]
  · show s.total_table_size_ - (largest_part s.items_in_part_ s.num_partitions_).1
      = s.total_table_size_ - s.items_in_part_.getD s.p_idx 0
    rw [← hsz]
    rfl
  · rw [hpush, List.length_map]
    exact hi.count_eq s.p_idx hidx

end PopClaims
end c7a

namespace c7a
section SpillClaim
variable {K V : Type} [DecidableEq K]

theorem ex_state_reachable : Reachable ex_hash ex_key ex_reduce ex_state :=
  Reachable_Insert_all _ _ _ _ _ (ex_table_reachable 3 3 (by decide) (by decide))

theorem Insert_update_empty (hash : K → Nat) (ke : V → K) (rf : V → V → V) (s : HashTable K V)
    (p : V) (h : s.array_.getD (hash_result.of hash (ke p) s).global_index [] = []) :
    HashTable.Insert_update hash ke rf s p
      = { s with
          array_ := s.array_.set (hash_result.of hash (ke p) s).global_index
            [{ key := ke p, value := p }]
          items_in_part_ := incr_at s.items_in_part_ (hash_result.of hash (ke p) s).partition_id
          total_table_size_ := s.total_table_size_ + 1 } := by
  rw [Insert_update_eq, h]
  rfl

theorem Insert_of_spill (hash : K → Nat) (ke : V → K) (rf : V → V → V) (s : HashTable K V)
    (p : V)
    (h : (HashTable.Insert_update hash ke rf s p).total_table_size_
      > (HashTable.Insert_update hash ke rf s p).max_table_size_) :
    HashTable.Insert hash ke rf s p
      = HashTable.PopLargestSubtable (HashTable.Insert_update hash ke rf s p) := by
  unfold HashTable.Insert
  dsimp only
  rw [if_pos h]

theorem Insert_of_no_spill (hash : K → Nat) (ke : V → K) (rf : V → V → V) (s : HashTable K V)
    (p : V)
    (h : (HashTable.Insert_update hash ke rf s p).total_table_size_
      ≤ (HashTable.Insert_update hash ke rf s p).max_table_size_) :
    HashTable.Insert hash ke rf s p = (HashTable.Insert_update hash ke rf s p, []) := by
  unfold HashTable.Insert
  dsimp only
  rw [if_neg (not_lt.mpr h)]

end SpillClaim
end c7a

namespace c7a
section SpillScenario
variable {K V : Type}

/-- The state of the two-partition scenario after `X` and `Y` were linked into buckets
`gx < 50 ≤ gy` and partition 0 was drained. -/
theorem scenario_drain (nx ny : node K V) (gx gy : Nat) (hgx : gx < 50) (hgy1 : 50 ≤ gy)
    (hgy2 : gy < 100) :
    (drain_buckets (((List.replicate 100 ([] : List (node K V))).set gx [nx]).set gy [ny])
        (0 * 50) 50).2 = [nx] ∧
    (drain_buckets (((List.replicate 100 ([] : List (node K V))).set gx [nx]).set gy [ny])
        (0 * 50) 50).1.flatten = [ny] := by
  have hget : ∀ g, (((List.replicate 100 ([] : List (node K V))).set gx [nx]).set gy [ny]).getD g []
      = if g = gy then [ny] else if g = gx then [nx] else [] := by
    intro g
    rw [getD_set_eq, getD_set_eq, getD_replicate_nil, List.length_set, List.length_replicate]
    split_ifs <;> first | rfl | (exfalso; omega)
  constructor
  · rw [drain_buckets_nodes, flatMap_range_single 50 gx _ hgx]
    · show _ = [nx]
      rw [hget, if_neg (by omega), if_pos (by omega)]
    · intro j hj hne
      show List.getD _ (0 * 50 + j) [] = []
      rw [hget, if_neg (by omega), if_neg (by omega)]
  · rw [flatten_eq_flatMap_range, drain_buckets_length, List.length_set, List.length_set,
      List.length_replicate, flatMap_range_single 100 gy _ hgy2]
    · show List.getD _ gy [] = [ny]
      rw [drain_buckets_getD, if_neg (by omega), hget, if_pos rfl]
    · intro j hj hne
      show List.getD _ j [] = []
      rw [drain_buckets_getD]
      split
      · rfl
      · rw [hget, if_neg hne, if_neg (by omega)]

variable [DecidableEq K]

/-- C9: `Insert` calls `PopLargestSubtable` once when the total after its update is
strictly above `max_table_size_` and not at all otherwise, in particular not when the two
are equal.  With 100 buckets, 2 partitions and threshold 1: inserting `x` whose key routes
to partition 0 pushes nothing and gives `Size() = 1`; inserting then `y` whose key routes
to partition 1 makes the counters `[1, 1]`, the spill selects partition 0, pushes `x`, and
leaves counters `[0, 1]`, `Size() = 1` and the entry of `y` as the only resident one. -/
theorem Insert_spill_check (hash : K → Nat) (key_extractor_ : V → K)
    (reduce_function_ : V → V → V) (x y : V) (s0 : HashTable K V)
    (hc : HashTable.construct 1 2 = Except.ok s0)
    (hx : (hash_result.of hash (key_extractor_ x) s0).partition_id = 0)
    (hy : (hash_result.of hash (key_extractor_ y) s0).partition_id = 1) :
    (∀ (s : HashTable K V) (p : V),
      HashTable.Insert hash key_extractor_ reduce_function_ s p
        = if (HashTable.Insert_update hash key_extractor_ reduce_function_ s p).total_table_size_
            > (HashTable.Insert_update hash key_extractor_ reduce_function_ s p).max_table_size_
          then HashTable.PopLargestSubtable
            (HashTable.Insert_update hash key_extractor_ reduce_function_ s p)
          else (HashTable.Insert_update hash key_extractor_ reduce_function_ s p, [])) ∧
    (∀ (s : HashTable K V) (p : V),
      (HashTable.Insert_update hash key_extractor_ reduce_function_ s p).total_table_size_
          = (HashTable.Insert_update hash key_extractor_ reduce_function_ s p).max_table_size_ →
      HashTable.Insert hash key_extractor_ reduce_function_ s p
        = (HashTable.Insert_update hash key_extractor_ reduce_function_ s p, [])) ∧
    (HashTable.Insert hash key_extractor_ reduce_function_ s0 x).2 = [] ∧
    (HashTable.Insert hash key_extractor_ reduce_function_ s0 x).1.Size = 1 ∧
    HashTable.spills hash key_extractor_ reduce_function_
      (HashTable.Insert hash key_extractor_ reduce_function_ s0 x).1 y = true ∧
    (HashTable.Insert_update hash key_extractor_ reduce_function_
      (HashTable.Insert hash key_extractor_ reduce_function_ s0 x).1 y).items_in_part_
        = [1, 1] ∧
    (HashTable.Insert_update hash key_extractor_ reduce_function_
      (HashTable.Insert hash key_extractor_ reduce_function_ s0 x).1 y).p_idx = 0 ∧
    (HashTable.Insert hash key_extractor_ reduce_function_
      (HashTable.Insert hash key_extractor_ reduce_function_ s0 x).1 y).2 = [x] ∧
    (HashTable.Insert hash key_extractor_ reduce_function_
      (HashTable.Insert hash key_extractor_ reduce_function_ s0 x).1 y).1.items_in_part_
        = [0, 1] ∧
    (HashTable.Insert hash key_extractor_ reduce_function_
      (HashTable.Insert hash key_extractor_ reduce_function_ s0 x).1 y).1.Size = 1 ∧
    (HashTable.Insert hash key_extractor_ reduce_function_
      (HashTable.Insert hash key_extractor_ reduce_function_ s0 x).1 y).1.entries
        = [{ key := key_extractor_ y, value := y }] := by
  obtain ⟨_, _, rfl⟩ := construct_ok 1 2 s0 hc
  -- bucket indices of the two keys
  have hgx : hash (key_extractor_ x) % 50 + 0 * 50 < 50 := by omega
  have hgy1 : 50 ≤ hash (key_extractor_ y) % 50 + 1 * 50 := by omega
  have hgy2 : hash (key_extractor_ y) % 50 + 1 * 50 < 100 := by omega
  have hgxe : ∀ t : HashTable K V, t.num_partitions_ = 2 → t.buckets_per_part_ = 50 →
      (hash_result.of hash (key_extractor_ x) t).partition_id = 0 ∧
      (hash_result.of hash (key_extractor_ x) t).global_index
        = hash (key_extractor_ x) % 50 + 0 * 50 := by
    intro t hP hb
    have hx2 : hash (key_extractor_ x) % 50 % 2 = 0 := hx
    unfold hash_result.of
    dsimp only
    rw [hP, hb, hx2]
    exact ⟨rfl, rfl⟩
  have hgye : ∀ t : HashTable K V, t.num_partitions_ = 2 → t.buckets_per_part_ = 50 →
      (hash_result.of hash (key_extractor_ y) t).partition_id = 1 ∧
      (hash_result.of hash (key_extractor_ y) t).global_index
        = hash (key_extractor_ y) % 50 + 1 * 50 := by
    intro t hP hb
    have hy2 : hash (key_extractor_ y) % 50 % 2 = 1 := hy
    unfold hash_result.of
    dsimp only
    rw [hP, hb, hy2]
    exact ⟨rfl, rfl⟩
  generalize hash (key_extractor_ x) % 50 + 0 * 50 = gx at hgx hgxe
  generalize hash (key_extractor_ y) % 50 + 1 * 50 = gy at hgy1 hgy2 hgye
  -- the first Insert
  have hu1 : HashTable.Insert_update hash key_extractor_ reduce_function_
      ({ max_table_size_ := 1, num_partitions_ := 2, buckets_per_part_ := num_buckets_ / 2,
         items_in_part_ := List.replicate 2 0, total_table_size_ := 0,
         array_ := List.replicate num_buckets_ [] } : HashTable K V) x
      = { max_table_size_ := 1, num_partitions_ := 2, buckets_per_part_ := 50,
          items_in_part_ := [1, 0], total_table_size_ := 1,
          array_ := (List.replicate 100 []).set gx [{ key := key_extractor_ x, value := x }] } := by
    rw [Insert_update_empty _ _ _ _ _ (getD_replicate_nil _ _), (hgxe _ rfl rfl).1,
      (hgxe _ rfl rfl).2]
    rfl
  have hi1 : HashTable.Insert hash key_extractor_ reduce_function_
      ({ max_table_size_ := 1, num_partitions_ := 2, buckets_per_part_ := num_buckets_ / 2,
         items_in_part_ := List.replicate 2 0, total_table_size_ := 0,
         array_ := List.replicate num_buckets_ [] } : HashTable K V) x
      = (HashTable.Insert_update hash key_extractor_ reduce_function_
          ({ max_table_size_ := 1, num_partitions_ := 2, buckets_per_part_ := num_buckets_ / 2,
             items_in_part_ := List.replicate 2 0, total_table_size_ := 0,
             array_ := List.replicate num_buckets_ [] } : HashTable K V) x, []) :=
    Insert_of_no_spill _ _ _ _ _ (by rw [hu1])
  -- the second Insert
  have hu2 : HashTable.Insert_update hash key_extractor_ reduce_function_
      ({ max_table_size_ := 1, num_partitions_ := 2, buckets_per_part_ := 50,
          items_in_part_ := [1, 0], total_table_size_ := 1,
          array_ := (List.replicate 100 []).set gx [{ key := key_extractor_ x, value := x }] }
        : HashTable K V) y
      = { max_table_size_ := 1, num_partitions_ := 2, buckets_per_part_ := 50,
          items_in_part_ := [1, 1], total_table_size_ := 2,
          array_ := ((List.replicate 100 []).set gx
            [{ key := key_extractor_ x, value := x }]).set gy
            [{ key := key_extractor_ y, value := y }] } := by
    rw [Insert_update_empty, (hgye _ rfl rfl).1, (hgye _ rfl rfl).2]
    · rfl
    · rw [(hgye _ rfl rfl).2]
      show ((List.replicate 100 []).set gx _).getD gy [] = []
      rw [getD_set_eq, if_neg (by omega), getD_replicate_nil]
  obtain ⟨hd1, hd2⟩ := scenario_drain ({ key := key_extractor_ x, value := x } : node K V)
    { key := key_extractor_ y, value := y } gx gy hgx hgy1 hgy2
  have hi2 : HashTable.Insert hash key_extractor_ reduce_function_
      ({ max_table_size_ := 1, num_partitions_ := 2, buckets_per_part_ := 50,
          items_in_part_ := [1, 0], total_table_size_ := 1,
          array_ := (List.replicate 100 []).set gx [{ key := key_extractor_ x, value := x }] }
        : HashTable K V) y
      = HashTable.PopLargestSubtable
        { max_table_size_ := 1, num_partitions_ := 2, buckets_per_part_ := 50,
          items_in_part_ := [1, 1], total_table_size_ := 2,
          array_ := ((List.replicate 100 []).set gx
            [{ key := key_extractor_ x, value := x }]).set gy
            [{ key := key_extractor_ y, value := y }] } := by
    rw [Insert_of_spill _ _ _ _ _ (by rw [hu2]; show (2 : Int) > 1; decide), hu2]
  refine ⟨fun s p => rfl, fun s p he => Insert_of_no_spill _ _ _ s p (le_of_eq he), ?_, ?_, ?_,
    ?_, ?_, ?_, ?_, ?_, ?_⟩
  · rw [hi1]
  · rw [hi1, hu1]; rfl
  · rw [hi1, hu1]
    unfold HashTable.spills
    rw [hu2]
    show decide ((2 : Int) > 1) = true
    decide
  · rw [hi1, hu1, hu2]
  · rw [hi1, hu1, hu2]; rfl
  · rw [hi1, hu1, hi2]
    show (drain_buckets _ (0 * 50) 50).2.map node.value = [x]
    rw [hd1]
    rfl
  · rw [hi1, hu1, hi2]; rfl
  · rw [hi1, hu1, hi2]; rfl
  · rw [hi1, hu1, hi2]
    exact hd2

end SpillScenario
end c7a

namespace c7a
section MoreWitnesses

theorem Flush_pushes_resident_witness :
    (HashTable.Flush ex_state).2 = [1, 2] ∧
    (HashTable.Flush ex_state).2 = ex_state.array_.flatten.map node.value :=
  ⟨by decide,
    (Flush_pushes_resident ex_hash ex_key ex_reduce ex_state ex_state_reachable).1⟩

theorem Flush_resets_witness :
    (HashTable.Flush ex_state).1 = ex_table 3 3 ∧
    (HashTable.Flush (HashTable.Flush ex_state).1).2 = [] :=
  ⟨by decide,
    (Flush_resets ex_hash ex_key ex_reduce ex_state ex_state_reachable).2.2.2.2.2.2.1⟩

theorem PopLargestSubtable_empties_largest_witness :
    ex_state.items_in_part_ = [0, 1, 1] ∧
    ex_state.p_idx < ex_state.num_partitions_ ∧
    (HashTable.PopLargestSubtable ex_state).1.items_in_part_.getD ex_state.p_idx 0 = 0 :=
  ⟨by decide,
    (PopLargestSubtable_empties_largest ex_hash ex_key ex_reduce ex_state ex_state_reachable
      ⟨1, by decide, by decide⟩).1,
    (PopLargestSubtable_empties_largest ex_hash ex_key ex_reduce ex_state ex_state_reachable
      ⟨1, by decide, by decide⟩).2.2.2.2.2.1⟩

theorem PopLargestSubtable_pushes_partition_witness :
    (HashTable.PopLargestSubtable ex_state).2 = [1] ∧
    (HashTable.PopLargestSubtable ex_state).1.Size
      = ex_state.Size - ex_state.items_in_part_.getD ex_state.p_idx 0 :=
  ⟨by decide,
    (PopLargestSubtable_pushes_partition ex_hash ex_key ex_reduce ex_state
      ex_state_reachable).2.2.1⟩

theorem Insert_spill_check_witness :
    (HashTable.Insert ex_hash ex_key ex_reduce
      (HashTable.Insert ex_hash ex_key ex_reduce (ex_table 1 2) 0).1 1).2 = [0] ∧
    (HashTable.Insert ex_hash ex_key ex_reduce
      (HashTable.Insert ex_hash ex_key ex_reduce (ex_table 1 2) 0).1 1).1.Size = 1 :=
  ⟨(Insert_spill_check ex_hash ex_key ex_reduce 0 1 (ex_table 1 2) rfl (by decide)
      (by decide)).2.2.2.2.2.2.2.1,
    (Insert_spill_check ex_hash ex_key ex_reduce 0 1 (ex_table 1 2) rfl (by decide)
      (by decide)).2.2.2.2.2.2.2.2.2.1⟩

end MoreWitnesses
end c7a

namespace c7a
section KeyFacts
variable {K V : Type}

theorem hash_result_of_congr (hash : K → Nat) (k : K) (s t : HashTable K V)
    (hP : t.num_partitions_ = s.num_partitions_) (hb : t.buckets_per_part_ = s.buckets_per_part_) :
    hash_result.of hash k t = hash_result.of hash k s := by
  unfold hash_result.of
  rw [hP, hb]

variable [DecidableEq K]

theorem Insert_update_params (hash : K → Nat) (ke : V → K) (rf : V → V → V) (s : HashTable K V)
    (p : V) :
    (HashTable.Insert_update hash ke rf s p).num_partitions_ = s.num_partitions_ ∧
    (HashTable.Insert_update hash ke rf s p).buckets_per_part_ = s.buckets_per_part_ ∧
    (HashTable.Insert_update hash ke rf s p).max_table_size_ = s.max_table_size_ := by
  rw [Insert_update_eq]
  split <;> exact ⟨rfl, rfl, rfl⟩

theorem Insert_update_array (hash : K → Nat) (ke : V → K) (rf : V → V → V) (s : HashTable K V)
    (p : V) :
    (HashTable.Insert_update hash ke rf s p).array_
      = s.array_.set (hash_result.of hash (ke p) s).global_index
          (match scan_chain rf (ke p) p
              (s.array_.getD (hash_result.of hash (ke p) s).global_index []) with
            | some chain => chain
            | none => { key := ke p, value := p }
                :: s.array_.getD (hash_result.of hash (ke p) s).global_index []) := by
  rw [Insert_update_eq]
  cases scan_chain rf (ke p) p
    (s.array_.getD (hash_result.of hash (ke p) s).global_index []) <;> rfl

/-- Under the invariant the entries of key `k` are those of its home bucket. -/
theorem entries_of_home (hash : K → Nat) (s : HashTable K V) (hi : Inv hash s) (k : K) :
    s.entries_of k
      = (s.array_.getD (hash_result.of hash k s).global_index []).filter
          (fun n => decide (n.key = k)) := by
  obtain ⟨_, _, _, hglt, hcap⟩ :=
    hash_result_bounds hash s hi.parts_pos hi.parts_le hi.bpp_eq k
  unfold HashTable.entries_of HashTable.entries
  rw [flatten_eq_flatMap_range, List.filter_flatMap, hi.array_len,
    flatMap_range_single num_buckets_ (hash_result.of hash k s).global_index _ (by omega)]
  intro j _ hne
  show (s.array_.getD j []).filter _ = []
  rw [List.filter_eq_nil_iff]
  intro n hn hk
  apply hne
  rw [← hi.located j n hn, of_decide_eq_true hk]

theorem filter_key_other (hash : K → Nat) (s : HashTable K V) (hi : Inv hash s) (k : K)
    (g : Nat) (hne : g ≠ (hash_result.of hash k s).global_index) :
    (s.array_.getD g []).filter (fun n => decide (n.key = k)) = [] := by
  rw [List.filter_eq_nil_iff]
  intro n hn hk
  apply hne
  rw [← hi.located g n hn, of_decide_eq_true hk]

end KeyFacts
end c7a

namespace c7a
section TrackFacts
variable {K V : Type} [DecidableEq K]

theorem fold_reduce_snoc (rf : V → V → V) (cur : List V) (v p : V)
    (h : fold_reduce rf cur = some v) : fold_reduce rf (cur ++ [p]) = some (rf v p) := by
  cases cur with
  | nil => cases h
  | cons v1 rest =>
    have hv : rest.foldl rf v1 = v := Option.some.inj h
    show some ((rest ++ [p]).foldl rf v1) = _
    rw [List.foldl_append, hv]
    rfl

theorem fold_reduce_eq_none (rf : V → V → V) (cur : List V) (h : fold_reduce rf cur = none) :
    cur = [] := by
  cases cur with
  | nil => rfl
  | cons v1 rest => cases h

/-- The entries of key `k` after the update part of `Insert(p)`. -/
theorem entries_of_Insert_update (hash : K → Nat) (ke : V → K) (rf : V → V → V)
    (s : HashTable K V) (hi : Inv hash s) (p : V) (k : K) :
    (k ≠ ke p →
      (HashTable.Insert_update hash ke rf s p).entries_of k = s.entries_of k) ∧
    (s.entries_of (ke p) = [] →
      (HashTable.Insert_update hash ke rf s p).entries_of (ke p)
        = [{ key := ke p, value := p }]) ∧
    (∀ v, s.entries_of (ke p) = [{ key := ke p, value := v }] →
      (HashTable.Insert_update hash ke rf s p).entries_of (ke p)
        = [{ key := ke p, value := rf v p }]) := by
  have hi2 := Inv_Insert_update hash ke rf s p hi
  obtain ⟨hP, hb, _⟩ := Insert_update_params hash ke rf s p
  obtain ⟨_, _, _, hglt, hcap⟩ :=
    hash_result_bounds hash s hi.parts_pos hi.parts_le hi.bpp_eq (ke p)
  have hgl : (hash_result.of hash (ke p) s).global_index < s.array_.length := by
    rw [hi.array_len]; omega
  have hhome : ∀ k', (HashTable.Insert_update hash ke rf s p).entries_of k'
      = ((s.array_.set (hash_result.of hash (ke p) s).global_index
          (match scan_chain rf (ke p) p
              (s.array_.getD (hash_result.of hash (ke p) s).global_index []) with
            | some chain => chain
            | none => { key := ke p, value := p }
                :: s.array_.getD (hash_result.of hash (ke p) s).global_index [])).getD
          (hash_result.of hash k' s).global_index []).filter (fun n => decide (n.key = k')) := by
    intro k'
    rw [entries_of_home hash _ hi2 k', hash_result_of_congr hash k' s _ hP hb,
      Insert_update_array]
  refine ⟨?_, ?_, ?_⟩
  · intro hne
    rw [hhome k, entries_of_home hash s hi k, getD_set_eq]
    by_cases hg : (hash_result.of hash (ke p) s).global_index
        = (hash_result.of hash k s).global_index
    · rw [if_pos ⟨hg, hgl⟩, ← hg]
      cases hs : scan_chain rf (ke p) p
          (s.array_.getD (hash_result.of hash (ke p) s).global_index []) with
      | some c => exact scan_chain_filter_ne rf (ke p) p k hne _ c hs
      | none =>
        show List.filter _ (_ :: _) = _
        rw [List.filter_cons, if_neg]
        intro hk
        exact hne (of_decide_eq_true hk).symm
    · rw [if_neg (fun hc => hg hc.1)]
  · intro hnil
    rw [entries_of_home hash s hi (ke p), List.filter_eq_nil_iff] at hnil
    have hs : scan_chain rf (ke p) p
        (s.array_.getD (hash_result.of hash (ke p) s).global_index []) = none := by
      rw [scan_chain_none]
      intro n hn hk
      exact hnil n hn (decide_eq_true hk)
    rw [hhome (ke p), getD_set_eq, if_pos ⟨rfl, hgl⟩, hs]
    show List.filter _ (_ :: _) = _
    rw [List.filter_cons, if_pos (by simp), List.filter_eq_nil_iff.mpr hnil]
  · intro v hv
    rw [entries_of_home hash s hi (ke p)] at hv
    cases hs : scan_chain rf (ke p) p
        (s.array_.getD (hash_result.of hash (ke p) s).global_index []) with
    | none =>
      rw [scan_chain_none] at hs
      have : ({ key := ke p, value := v } : node K V)
          ∈ (s.array_.getD (hash_result.of hash (ke p) s).global_index []).filter
            (fun n => decide (n.key = ke p)) := by rw [hv]; exact List.mem_singleton.mpr rfl
      exact absurd rfl (hs _ (List.mem_filter.mp this).1)
    | some c =>
      obtain ⟨w, hw1, hw2⟩ := scan_chain_filter_eq rf (ke p) p _ c hs (hi.nodup _)
      rw [hv] at hw1
      have hvw : v = w := by
        have := List.head_eq_of_cons_eq hw1
        exact congrArg node.value this
      rw [hhome (ke p), getD_set_eq, if_pos ⟨rfl, hgl⟩, hs, hvw]
      exact hw2

theorem Tracks_Insert_update (hash : K → Nat) (ke : V → K) (rf : V → V → V)
    (s : HashTable K V) (hi : Inv hash s) (p : V) (k : K) (cur : List V)
    (ht : Tracks rf s k cur) :
    Tracks rf (HashTable.Insert_update hash ke rf s p) k
      (cur ++ [p].filter (fun v => decide (ke v = k))) := by
  obtain ⟨hother, hnew, hold⟩ := entries_of_Insert_update hash ke rf s hi p k
  unfold Tracks at ht ⊢
  by_cases hk : ke p = k
  · subst hk
    rw [List.filter_cons, if_pos (by simp), List.filter_nil]
    cases hf : fold_reduce rf cur with
    | none =>
      rw [hf] at ht
      rw [fold_reduce_eq_none rf cur hf, hnew ht]
      rfl
    | some v =>
      rw [hf] at ht
      rw [fold_reduce_snoc rf cur v p hf, hold v ht]
      rfl
  · rw [List.filter_cons, if_neg (by simp [hk]), List.filter_nil, List.append_nil,
      hother (fun e => hk e.symm)]
    exact ht

end TrackFacts
end c7a

namespace c7a
section FoldClaim
variable {K V : Type} [DecidableEq K]

theorem flatten_replicate_nil {α : Type} (n : Nat) :
    (List.replicate n ([] : List α)).flatten = [] := by
  induction n with
  | zero => rfl
  | succ n ih => rw [List.replicate_succ, List.flatten_cons, ih]; rfl

theorem Tracks_construct (rf : V → V → V) (thr : Int) (P : Nat) (s : HashTable K V)
    (h : HashTable.construct thr P = Except.ok s) (k : K) : Tracks rf s k [] := by
  obtain ⟨_, _, rfl⟩ := construct_ok thr P s h
  show List.filter _ (List.replicate num_buckets_ ([] : List (node K V))).flatten = []
  rw [flatten_replicate_nil]
  rfl

theorem no_spill_cons (hash : K → Nat) (ke : V → K) (rf : V → V → V) (s : HashTable K V)
    (p : V) (ps : List V) (h : HashTable.no_spill hash ke rf s (p :: ps) = true) :
    HashTable.Insert hash ke rf s p = (HashTable.Insert_update hash ke rf s p, []) ∧
    HashTable.no_spill hash ke rf (HashTable.Insert_update hash ke rf s p) ps = true := by
  unfold HashTable.no_spill at h
  rw [Bool.and_eq_true, Bool.not_eq_true'] at h
  obtain ⟨h1, h2⟩ := h
  unfold HashTable.spills at h1
  have hle := not_lt.mp (of_decide_eq_false h1)
  have hins := Insert_of_no_spill hash ke rf s p hle
  rw [hins] at h2
  exact ⟨hins, h2⟩

theorem Tracks_Insert_all (hash : K → Nat) (ke : V → K) (rf : V → V → V) (k : K)
    (vs : List V) : ∀ (s : HashTable K V) (cur : List V), Inv hash s → Tracks rf s k cur →
      HashTable.no_spill hash ke rf s vs = true →
      Tracks rf (HashTable.Insert_all hash ke rf s vs).1 k
        (cur ++ vs.filter (fun v => decide (ke v = k))) ∧
      (HashTable.Insert_all hash ke rf s vs).2 = [] := by
  induction vs with
  | nil =>
    intro s cur _ ht _
    rw [List.filter_nil, List.append_nil]
    exact ⟨ht, rfl⟩
  | cons p ps ih =>
    intro s cur hi ht hns
    obtain ⟨hins, hns2⟩ := no_spill_cons hash ke rf s p ps hns
    have hstep := Tracks_Insert_update hash ke rf s hi p k cur ht
    obtain ⟨h1, h2⟩ := ih _ _ (Inv_Insert_update hash ke rf s p hi) hstep hns2
    have hun : HashTable.Insert_all hash ke rf s (p :: ps)
        = ((HashTable.Insert_all hash ke rf (HashTable.Insert hash ke rf s p).1 ps).1,
            (HashTable.Insert hash ke rf s p).2
              ++ (HashTable.Insert_all hash ke rf (HashTable.Insert hash ke rf s p).1 ps).2) :=
      rfl
    rw [hun, hins]
    refine ⟨?_, ?_⟩
    · have hf : (p :: ps).filter (fun v => decide (ke v = k))
          = [p].filter (fun v => decide (ke v = k)) ++ ps.filter (fun v => decide (ke v = k)) := by
        rw [← List.filter_append]; rfl
      rw [hf, ← List.append_assoc]
      exact h1
    · show [] ++ _ = []
      rw [h2]; rfl

/-- C1: on a freshly constructed table (`1 ≤ P ≤ 100`), after any sequence of `Insert`
calls none of which spills, every inserted key `k` has exactly one resident entry, and its
value is the left fold of the reduce function over the values inserted with key `k`, in
insertion order, seeded with the first of them; nothing was pushed to the sink. -/
theorem Insert_all_folds (hash : K → Nat) (key_extractor_ : V → K)
    (reduce_function_ : V → V → V) (max_table_size_ : Int) (P : Nat) (s0 : HashTable K V)
    (hc : HashTable.construct max_table_size_ P = Except.ok s0) (vs : List V)
    (hns : HashTable.no_spill hash key_extractor_ reduce_function_ s0 vs = true)
    (k : K) (hk : k ∈ vs.map key_extractor_) :
    ∃ v1 rest, vs.filter (fun v => decide (key_extractor_ v = k)) = v1 :: rest ∧
      (HashTable.Insert_all hash key_extractor_ reduce_function_ s0 vs).1.entries_of k
        = [{ key := k, value := rest.foldl reduce_function_ v1 }] ∧
      (HashTable.Insert_all hash key_extractor_ reduce_function_ s0 vs).2 = [] := by
  obtain ⟨ht, hout⟩ := Tracks_Insert_all hash key_extractor_ reduce_function_ k vs s0 []
    (Inv_construct hash _ _ _ hc) (Tracks_construct reduce_function_ _ _ _ hc k) hns
  rw [List.nil_append] at ht
  rw [List.mem_map] at hk
  obtain ⟨v, hv, hvk⟩ := hk
  have hmem : v ∈ vs.filter (fun v => decide (key_extractor_ v = k)) :=
    List.mem_filter.mpr ⟨hv, decide_eq_true hvk⟩
  cases hf : vs.filter (fun v => decide (key_extractor_ v = k)) with
  | nil => rw [hf] at hmem; cases hmem
  | cons v1 rest =>
    refine ⟨v1, rest, rfl, ?_, hout⟩
    unfold Tracks at ht
    rw [hf] at ht
    exact ht

theorem Insert_all_folds_witness :
    HashTable.no_spill ex_hash ex_key ex_reduce (ex_table 3 3) [1, 12, 21, 2, 31] = true ∧
    ∃ v1 rest, [1, 12, 21, 2, 31].filter (fun v => decide (ex_key v = 1)) = v1 :: rest ∧
      (HashTable.Insert_all ex_hash ex_key ex_reduce (ex_table 3 3)
          [1, 12, 21, 2, 31]).1.entries_of 1
        = [{ key := 1, value := rest.foldl ex_reduce v1 }] ∧
      (HashTable.Insert_all ex_hash ex_key ex_reduce (ex_table 3 3) [1, 12, 21, 2, 31]).2 = [] :=
  ⟨by decide,
    Insert_all_folds ex_hash ex_key ex_reduce 3 3 (ex_table 3 3) rfl [1, 12, 21, 2, 31]
      (by decide) 1 (by decide)⟩

end FoldClaim
end c7a

namespace c7a
section SegmentFacts
variable {K V : Type} [DecidableEq K]

theorem PopLargestSubtable_nodes_entries_of (hash : K → Nat) (s : HashTable K V)
    (hi : Inv hash s) (k : K) :
    (HashTable.PopLargestSubtable_nodes s).2.filter (fun n => decide (n.key = k))
        ++ (HashTable.PopLargestSubtable_nodes s).1.entries_of k = s.entries_of k ∧
    ((HashTable.PopLargestSubtable_nodes s).2.filter (fun n => decide (n.key = k)) = [] ∨
      (HashTable.PopLargestSubtable_nodes s).1.entries_of k = []) := by
  have hi2 : Inv hash (HashTable.PopLargestSubtable_nodes s).1 :=
    Inv_PopLargestSubtable hash s hi
  obtain ⟨hpid, hoff, hg, hglt, hcap⟩ :=
    hash_result_bounds hash s hi.parts_pos hi.parts_le hi.bpp_eq k
  have hD : (HashTable.PopLargestSubtable_nodes s).2.filter (fun n => decide (n.key = k))
      = (List.range s.buckets_per_part_).flatMap (fun j =>
          (s.array_.getD (s.p_idx * s.buckets_per_part_ + j) []).filter
            (fun n => decide (n.key = k))) := by
    show (drain_buckets s.array_ (s.p_idx * s.buckets_per_part_)
      s.buckets_per_part_).2.filter _ = _
    rw [drain_buckets_nodes, List.filter_flatMap]
  have hE : (HashTable.PopLargestSubtable_nodes s).1.entries_of k
      = ((drain_buckets s.array_ (s.p_idx * s.buckets_per_part_)
          s.buckets_per_part_).1.getD (hash_result.of hash k s).global_index []).filter
          (fun n => decide (n.key = k)) := by
    rw [entries_of_home hash _ hi2 k, hash_result_of_congr hash k s _ rfl rfl]
    rfl
  rw [hD, hE, drain_buckets_getD, entries_of_home hash s hi k]
  by_cases hp : (hash_result.of hash k s).partition_id = s.p_idx
  · have hsingle := flatMap_range_single s.buckets_per_part_
      (hash_result.of hash k s).partition_offset
      (fun j => (s.array_.getD (s.p_idx * s.buckets_per_part_ + j) []).filter
        (fun n => decide (n.key = k))) hoff
      (by
        intro j hj hne
        apply filter_key_other hash s hi k
        rw [hg, hp]
        omega)
    rw [hsingle, if_pos (by rw [hg, hp]; omega), ← hp]
    dsimp only
    rw [← hg]
    exact ⟨List.append_nil _, Or.inr rfl⟩
  · have hnil := flatMap_range_nil s.buckets_per_part_
      (fun j => (s.array_.getD (s.p_idx * s.buckets_per_part_ + j) []).filter
        (fun n => decide (n.key = k)))
      (by
        intro j hj
        apply filter_key_other hash s hi k
        rw [hg]
        intro he
        exact hp (bucket_index_inj _ _ _ _ _ hj hoff he).1.symm)
    rw [hnil, if_neg]
    · exact ⟨List.nil_append _, Or.inl rfl⟩
    · intro hc
      have h1 : (hash_result.of hash k s).partition_id * s.buckets_per_part_
            + (hash_result.of hash k s).partition_offset
          = s.p_idx * s.buckets_per_part_
            + ((hash_result.of hash k s).global_index - s.p_idx * s.buckets_per_part_) := by
        omega
      exact hp (bucket_index_inj _ _ _ _ _ hoff (by omega) h1).1

theorem Flush_nodes_entries_of (hash : K → Nat) (s : HashTable K V) (hi : Inv hash s) (k : K) :
    (HashTable.Flush_nodes s).2.filter (fun n => decide (n.key = k)) = s.entries_of k ∧
    (HashTable.Flush_nodes s).1.entries_of k = [] := by
  constructor
  · rw [Flush_nodes_eq, ← entries_eq_parts hash s hi]
    rfl
  · have hst : (HashTable.Flush_nodes s).1 = _ := Flush_state hash s hi
    rw [hst]
    show List.filter _ (List.replicate num_buckets_ ([] : List (node K V))).flatten = []
    rw [flatten_replicate_nil]
    rfl

end SegmentFacts
end c7a

namespace c7a
section SegmentSteps
variable {K V : Type} [DecidableEq K]

theorem Segmented_drain (ke : V → K) (rf : V → V → V) (k : K) (hist : List V)
    (T D : List (node K V)) (s t : HashTable K V)
    (h : Segmented ke rf k hist T s)
    (h1 : D.filter (fun n => decide (n.key = k)) ++ t.entries_of k = s.entries_of k)
    (h2 : D.filter (fun n => decide (n.key = k)) = [] ∨ t.entries_of k = []) :
    Segmented ke rf k hist (T ++ D) t := by
  obtain ⟨segs, cur, hflat, hfor, ht⟩ := h
  unfold Tracks at ht
  have hkeep : D.filter (fun n => decide (n.key = k)) = [] →
      Segmented ke rf k hist (T ++ D) t := by
    intro hD
    rw [hD, List.nil_append] at h1
    refine ⟨segs, cur, hflat, ?_, ?_⟩
    · rw [List.filter_append, hD, List.append_nil]
      exact hfor
    · unfold Tracks
      rw [h1]
      exact ht
  rcases h2 with hD | hE
  · exact hkeep hD
  · rw [hE, List.append_nil] at h1
    cases hf : fold_reduce rf cur with
    | none =>
      rw [hf] at ht
      exact hkeep (h1.trans ht)
    | some v =>
      rw [hf] at ht
      have hD : D.filter (fun n => decide (n.key = k)) = [{ key := k, value := v }] :=
        h1.trans ht
      refine ⟨segs ++ [cur], [], ?_, ?_, ?_⟩
      · rw [List.append_nil, List.flatten_append, ← hflat]
        simp
      · rw [List.filter_append, hD, List.map_append]
        exact List.rel_append hfor (List.Forall₂.cons hf List.Forall₂.nil)
      · unfold Tracks
        rw [hE]
        rfl

theorem Segmented_Insert_update (hash : K → Nat) (ke : V → K) (rf : V → V → V) (k : K)
    (hist : List V) (T : List (node K V)) (s : HashTable K V) (hi : Inv hash s) (p : V)
    (h : Segmented ke rf k hist T s) :
    Segmented ke rf k (hist ++ [p]) T (HashTable.Insert_update hash ke rf s p) := by
  obtain ⟨segs, cur, hflat, hfor, ht⟩ := h
  refine ⟨segs, cur ++ [p].filter (fun v => decide (ke v = k)), ?_, hfor,
    Tracks_Insert_update hash ke rf s hi p k cur ht⟩
  rw [List.filter_append, ← hflat, List.append_assoc]

theorem Segmented_Insert_nodes (hash : K → Nat) (ke : V → K) (rf : V → V → V) (k : K)
    (hist : List V) (T : List (node K V)) (s : HashTable K V) (hi : Inv hash s) (p : V)
    (h : Segmented ke rf k hist T s) :
    Segmented ke rf k (hist ++ [p]) (T ++ (HashTable.Insert_nodes hash ke rf s p).2)
      (HashTable.Insert_nodes hash ke rf s p).1 := by
  have hu := Segmented_Insert_update hash ke rf k hist T s hi p h
  have hi1 := Inv_Insert_update hash ke rf s p hi
  unfold HashTable.Insert_nodes
  dsimp only
  split
  · obtain ⟨h1, h2⟩ := PopLargestSubtable_nodes_entries_of hash _ hi1 k
    exact Segmented_drain ke rf k _ T _ _ _ hu h1 h2
  · rw [List.append_nil]
    exact hu

theorem Insert_eq_nodes (hash : K → Nat) (ke : V → K) (rf : V → V → V) (s : HashTable K V)
    (p : V) :
    (HashTable.Insert hash ke rf s p).1 = (HashTable.Insert_nodes hash ke rf s p).1 ∧
    (HashTable.Insert hash ke rf s p).2
      = (HashTable.Insert_nodes hash ke rf s p).2.map node.value := by
  unfold HashTable.Insert HashTable.Insert_nodes
  dsimp only
  split
  · exact ⟨rfl, rfl⟩
  · exact ⟨rfl, rfl⟩

theorem Insert_all_eq_nodes (hash : K → Nat) (ke : V → K) (rf : V → V → V) (vs : List V) :
    ∀ (s : HashTable K V),
      (HashTable.Insert_all hash ke rf s vs).1 = (HashTable.Insert_all_nodes hash ke rf s vs).1 ∧
      (HashTable.Insert_all hash ke rf s vs).2
        = (HashTable.Insert_all_nodes hash ke rf s vs).2.map node.value := by
  induction vs with
  | nil => intro s; exact ⟨rfl, rfl⟩
  | cons p ps ih =>
    intro s
    obtain ⟨h1, h2⟩ := Insert_eq_nodes hash ke rf s p
    obtain ⟨h3, h4⟩ := ih (HashTable.Insert_nodes hash ke rf s p).1
    constructor
    · show (HashTable.Insert_all hash ke rf (HashTable.Insert hash ke rf s p).1 ps).1 = _
      rw [h1, h3]
      rfl
    · show (HashTable.Insert hash ke rf s p).2
        ++ (HashTable.Insert_all hash ke rf (HashTable.Insert hash ke rf s p).1 ps).2 = _
      rw [h1, h2, h4]
      show _ = List.map node.value (_ ++ _)
      rw [List.map_append]

theorem Inv_Insert_nodes (hash : K → Nat) (ke : V → K) (rf : V → V → V) (s : HashTable K V)
    (p : V) (hi : Inv hash s) : Inv hash (HashTable.Insert_nodes hash ke rf s p).1 := by
  rw [← (Insert_eq_nodes hash ke rf s p).1]
  exact Inv_Insert hash ke rf s p hi

theorem Segmented_Insert_all_nodes (hash : K → Nat) (ke : V → K) (rf : V → V → V) (k : K)
    (vs : List V) : ∀ (s : HashTable K V) (hist : List V) (T : List (node K V)),
      Inv hash s → Segmented ke rf k hist T s →
      Inv hash (HashTable.Insert_all_nodes hash ke rf s vs).1 ∧
      Segmented ke rf k (hist ++ vs) (T ++ (HashTable.Insert_all_nodes hash ke rf s vs).2)
        (HashTable.Insert_all_nodes hash ke rf s vs).1 := by
  induction vs with
  | nil =>
    intro s hist T hi h
    rw [List.append_nil]
    show _ ∧ Segmented ke rf k hist (T ++ []) s
    rw [List.append_nil]
    exact ⟨hi, h⟩
  | cons p ps ih =>
    intro s hist T hi h
    have hstep := Segmented_Insert_nodes hash ke rf k hist T s hi p h
    obtain ⟨hi2, hseg⟩ := ih _ _ _ (Inv_Insert_nodes hash ke rf s p hi) hstep
    refine ⟨hi2, ?_⟩
    show Segmented ke rf k (hist ++ p :: ps)
      (T ++ ((HashTable.Insert_nodes hash ke rf s p).2
        ++ (HashTable.Insert_all_nodes hash ke rf (HashTable.Insert_nodes hash ke rf s p).1 ps).2))
      (HashTable.Insert_all_nodes hash ke rf (HashTable.Insert_nodes hash ke rf s p).1 ps).1
    rw [← List.append_assoc, show hist ++ p :: ps = hist ++ [p] ++ ps by simp]
    exact hseg

end SegmentSteps
end c7a

namespace c7a
section EvictionClaim
variable {K V : Type} [DecidableEq K]

/-- C2: eviction loses and duplicates nothing.  Run any sequence `vs` of `Insert` calls on
a freshly constructed table (`1 ≤ P ≤ 100`), then `Flush`.  What the sink received is the
sequence of the values of the nodes drained by the spills and by the `Flush`; and for
every key `k` the values pushed from nodes of key `k`, in push order, are the left folds
(seeded with the first value) of consecutive non-empty segments that, one after the other,
make up exactly the inserted values whose key is `k`. -/
theorem Insert_all_Flush_partitions (hash : K → Nat) (key_extractor_ : V → K)
    (reduce_function_ : V → V → V) (max_table_size_ : Int) (P : Nat) (s0 : HashTable K V)
    (hc : HashTable.construct max_table_size_ P = Except.ok s0) (vs : List V) (k : K) :
    (HashTable.Insert_all hash key_extractor_ reduce_function_ s0 vs).2
        ++ (HashTable.Flush (HashTable.Insert_all hash key_extractor_ reduce_function_ s0 vs).1).2
      = ((HashTable.Insert_all_nodes hash key_extractor_ reduce_function_ s0 vs).2
          ++ (HashTable.Flush_nodes
              (HashTable.Insert_all_nodes hash key_extractor_ reduce_function_ s0 vs).1).2).map
          node.value ∧
    ∃ segs : List (List V),
      segs.flatten = vs.filter (fun v => decide (key_extractor_ v = k)) ∧
      List.Forall₂ (fun seg v => fold_reduce reduce_function_ seg = some v) segs
        ((((HashTable.Insert_all_nodes hash key_extractor_ reduce_function_ s0 vs).2
          ++ (HashTable.Flush_nodes
              (HashTable.Insert_all_nodes hash key_extractor_ reduce_function_ s0 vs).1).2).filter
            (fun n => decide (n.key = k))).map node.value) := by
  obtain ⟨he1, he2⟩ := Insert_all_eq_nodes hash key_extractor_ reduce_function_ vs s0
  have hseg0 : Segmented key_extractor_ reduce_function_ k [] [] s0 :=
    ⟨[], [], rfl, List.Forall₂.nil, Tracks_construct reduce_function_ _ _ _ hc k⟩
  obtain ⟨hi, hseg⟩ := Segmented_Insert_all_nodes hash key_extractor_ reduce_function_ k vs
    s0 [] [] (Inv_construct hash _ _ _ hc) hseg0
  rw [List.nil_append, List.nil_append] at hseg
  obtain ⟨hf1, hf2⟩ := Flush_nodes_entries_of hash _ hi k
  have hfin := Segmented_drain key_extractor_ reduce_function_ k vs _
    (HashTable.Flush_nodes
      (HashTable.Insert_all_nodes hash key_extractor_ reduce_function_ s0 vs).1).2 _
    (HashTable.Flush_nodes
      (HashTable.Insert_all_nodes hash key_extractor_ reduce_function_ s0 vs).1).1
    hseg (by rw [hf1, hf2, List.append_nil]) (Or.inr hf2)
  obtain ⟨segs, cur, hflat, hfor, ht⟩ := hfin
  constructor
  · rw [he1, he2, List.map_append]
    rfl
  · refine ⟨segs, ?_, hfor⟩
    unfold Tracks at ht
    rw [hf2] at ht
    have hcur : cur = [] := by
      cases hfr : fold_reduce reduce_function_ cur with
      | none => exact fold_reduce_eq_none reduce_function_ cur hfr
      | some v => rw [hfr] at ht; cases ht
    rw [hcur, List.append_nil] at hflat
    exact hflat

theorem Insert_all_Flush_partitions_witness :
    (HashTable.Insert_all ex_hash ex_key ex_reduce (ex_table 3 3) [0, 10, 1, 2, 3, 20, 30]).2
        ++ (HashTable.Flush
            (HashTable.Insert_all ex_hash ex_key ex_reduce (ex_table 3 3)
              [0, 10, 1, 2, 3, 20, 30]).1).2
      = [10, 3, 70, 1, 2] ∧
    ∃ segs : List (List Nat),
      segs.flatten = [0, 10, 1, 2, 3, 20, 30].filter (fun v => decide (ex_key v = 0)) ∧
      List.Forall₂ (fun seg v => fold_reduce ex_reduce seg = some v) segs
        ((((HashTable.Insert_all_nodes ex_hash ex_key ex_reduce (ex_table 3 3)
              [0, 10, 1, 2, 3, 20, 30]).2
          ++ (HashTable.Flush_nodes
              (HashTable.Insert_all_nodes ex_hash ex_key ex_reduce (ex_table 3 3)
                [0, 10, 1, 2, 3, 20, 30]).1).2).filter
            (fun n => decide (n.key = 0))).map node.value) :=
  ⟨by decide,
    (Insert_all_Flush_partitions ex_hash ex_key ex_reduce 3 3 (ex_table 3 3) rfl
      [0, 10, 1, 2, 3, 20, 30] 0).2⟩

end EvictionClaim
end c7a

namespace c7a
section RoutingClaims
variable {K V : Type} [DecidableEq K]

theorem filter_key_length_le_one (c : List (node K V)) (k : K)
    (h : (c.map node.key).Nodup) : (c.filter (fun n => decide (n.key = k))).length ≤ 1 := by
  induction c with
  | nil => exact Nat.zero_le 1
  | cons n rest ih =>
    rw [List.map_cons, List.nodup_cons] at h
    by_cases hk : n.key = k
    · have hrest : rest.filter (fun m => decide (m.key = k)) = [] := by
        rw [List.filter_eq_nil_iff]
        intro m hm hmk
        apply h.1
        rw [hk, ← of_decide_eq_true hmk]
        exact List.mem_map_of_mem _ hm
      rw [List.filter_cons, if_pos (decide_eq_true hk), hrest]
      exact Nat.le_refl 1
    · rw [List.filter_cons, if_neg (by simpa using hk)]
      exact ih h.2

/-- C12: in every reachable state every resident entry of key `k` sits in the chain of
bucket `global_index(k)` and in no other bucket, no chain holds two entries with equal
keys, and so the whole table holds at most one entry per key. -/
theorem entry_in_home_bucket_only (hash : K → Nat) (key_extractor_ : V → K)
    (reduce_function_ : V → V → V) (s : HashTable K V)
    (h : Reachable hash key_extractor_ reduce_function_ s) :
    (∀ g, ∀ n ∈ s.array_.getD g [], g = (hash_result.of hash n.key s).global_index) ∧
    (∀ g, ((s.array_.getD g []).map node.key).Nodup) ∧
    (∀ k, s.entries_of k
      = (s.array_.getD (hash_result.of hash k s).global_index []).filter
          (fun n => decide (n.key = k))) ∧
    (∀ k, (s.entries_of k).length ≤ 1) := by
  have hi := Reachable_Inv hash key_extractor_ reduce_function_ s h
  refine ⟨fun g n hn => (hi.located g n hn).symm, hi.nodup, entries_of_home hash s hi, ?_⟩
  intro k
  rw [entries_of_home hash s hi k]
  exact filter_key_length_le_one _ k (hi.nodup _)

/-- C13: for a table with `1 ≤ P ≤ 100` partitions (every reachable state) and every key,
the indexer gives `partition_id < P` and
`partition_id * b ≤ global_index < partition_id * b + b ≤ 100` with `b` the buckets per
partition, so `array_[global_index]` and `items_in_part_[partition_id]` are inside the
arrays of 100 chains and `P` counters. -/
theorem hash_result_in_bounds (hash : K → Nat) (key_extractor_ : V → K)
    (reduce_function_ : V → V → V) (s : HashTable K V)
    (h : Reachable hash key_extractor_ reduce_function_ s) (k : K) :
    1 ≤ s.num_partitions_ ∧ s.num_partitions_ ≤ 100 ∧
    (hash_result.of hash k s).partition_id < s.num_partitions_ ∧
    (hash_result.of hash k s).partition_id * s.buckets_per_part_
      ≤ (hash_result.of hash k s).global_index ∧
    (hash_result.of hash k s).global_index
      < (hash_result.of hash k s).partition_id * s.buckets_per_part_ + s.buckets_per_part_ ∧
    (hash_result.of hash k s).partition_id * s.buckets_per_part_ + s.buckets_per_part_ ≤ 100 ∧
    (hash_result.of hash k s).global_index < s.array_.length ∧
    (hash_result.of hash k s).partition_id < s.items_in_part_.length := by
  have hi := Reachable_Inv hash key_extractor_ reduce_function_ s h
  obtain ⟨hpid, hoff, hg, hglt, hcap⟩ :=
    hash_result_bounds hash s hi.parts_pos hi.parts_le hi.bpp_eq k
  have hmul := Nat.mul_le_mul_right s.buckets_per_part_ (Nat.succ_le_of_lt hpid)
  rw [Nat.succ_mul] at hmul
  have hnb : num_buckets_ = 100 := rfl
  refine ⟨hi.parts_pos, hi.parts_le, hpid, ?_, ?_, ?_, ?_, ?_⟩
  · omega
  · omega
  · omega
  · rw [hi.array_len]; omega
  · rw [hi.items_len]; exact hpid

/-- C18: the partition id is computed from the partition offset, so in every reachable
state (`1 ≤ P ≤ 100`, `b = 100 / P`) and for every key: `partition_id ≤ partition_offset
< b`, the global index is `partition_offset + (partition_offset mod P) * b`, a function of
the offset alone; hence a bucket that holds an entry is one of the `b` indices
`o + (o mod P) * b` with `o < b`, no key is routed to a partition `≥ b`, and with
`P = 100` every key is routed to partition 0 and bucket 0. -/
theorem partition_from_offset (hash : K → Nat) (key_extractor_ : V → K)
    (reduce_function_ : V → V → V) (s : HashTable K V)
    (h : Reachable hash key_extractor_ reduce_function_ s) :
    s.buckets_per_part_ = 100 / s.num_partitions_ ∧
    (∀ k : K,
      (hash_result.of hash k s).partition_offset = hash k % s.buckets_per_part_ ∧
      (hash_result.of hash k s).partition_id
        = (hash_result.of hash k s).partition_offset % s.num_partitions_ ∧
      (hash_result.of hash k s).global_index
        = (hash_result.of hash k s).partition_offset
          + (hash_result.of hash k s).partition_offset % s.num_partitions_
            * s.buckets_per_part_ ∧
      (hash_result.of hash k s).partition_id ≤ (hash_result.of hash k s).partition_offset ∧
      (hash_result.of hash k s).partition_offset < s.buckets_per_part_ ∧
      (hash_result.of hash k s).partition_id < s.buckets_per_part_ ∧
      (hash_result.of hash k s).global_index
        ∈ (List.range s.buckets_per_part_).map
            (fun o => o + o % s.num_partitions_ * s.buckets_per_part_)) ∧
    ((List.range s.buckets_per_part_).map
      (fun o => o + o % s.num_partitions_ * s.buckets_per_part_)).length
        = s.buckets_per_part_ ∧
    (∀ g, s.array_.getD g [] ≠ [] →
      g ∈ (List.range s.buckets_per_part_).map
            (fun o => o + o % s.num_partitions_ * s.buckets_per_part_)) ∧
    (s.num_partitions_ = 100 → ∀ k : K,
      (hash_result.of hash k s).partition_id = 0 ∧
      (hash_result.of hash k s).global_index = 0) := by
  have hi := Reachable_Inv hash key_extractor_ reduce_function_ s h
  have hkey : ∀ k : K,
      (hash_result.of hash k s).partition_offset = hash k % s.buckets_per_part_ ∧
      (hash_result.of hash k s).partition_id
        = (hash_result.of hash k s).partition_offset % s.num_partitions_ ∧
      (hash_result.of hash k s).global_index
        = (hash_result.of hash k s).partition_offset
          + (hash_result.of hash k s).partition_offset % s.num_partitions_
            * s.buckets_per_part_ ∧
      (hash_result.of hash k s).partition_id ≤ (hash_result.of hash k s).partition_offset ∧
      (hash_result.of hash k s).partition_offset < s.buckets_per_part_ ∧
      (hash_result.of hash k s).partition_id < s.buckets_per_part_ ∧
      (hash_result.of hash k s).global_index
        ∈ (List.range s.buckets_per_part_).map
            (fun o => o + o % s.num_partitions_ * s.buckets_per_part_) := by
    intro k
    obtain ⟨_, hoff, _, _, _⟩ :=
      hash_result_bounds hash s hi.parts_pos hi.parts_le hi.bpp_eq k
    have hle : (hash_result.of hash k s).partition_id
        ≤ (hash_result.of hash k s).partition_offset := Nat.mod_le _ _
    refine ⟨rfl, rfl, rfl, hle, hoff, lt_of_le_of_lt hle hoff, ?_⟩
    rw [List.mem_map]
    exact ⟨(hash_result.of hash k s).partition_offset, List.mem_range.mpr hoff, rfl⟩
  refine ⟨hi.bpp_eq, hkey, ?_, ?_, ?_⟩
  · rw [List.length_map, List.length_range]
  · intro g hg
    cases hc : s.array_.getD g [] with
    | nil => exact absurd hc hg
    | cons n rest =>
      have hn : n ∈ s.array_.getD g [] := by rw [hc]; exact List.mem_cons_self _ _
      rw [← hi.located g n hn]
      exact (hkey n.key).2.2.2.2.2.2
  · intro hP k
    have hb : s.buckets_per_part_ = 1 := by rw [hi.bpp_eq, hP]; rfl
    have hoff : (hash_result.of hash k s).partition_offset = 0 := by
      have := (hkey k).2.2.2.2.1
      omega
    have hpid : (hash_result.of hash k s).partition_id = 0 := by
      have := (hkey k).2.2.2.1
      omega
    refine ⟨hpid, ?_⟩
    have hg := (hkey k).2.2.1
    rw [← (hkey k).2.1, hpid, hoff] at hg
    omega

end RoutingClaims
end c7a

namespace c7a
section CountFacts
variable {K V : Type}

theorem sum_eq_sum_range_getD (l : List Int) :
    l.sum = ((List.range l.length).map (fun i => l.getD i 0)).sum := by
  induction l with
  | nil => rfl
  | cons a l ih =>
    rw [List.length_cons, List.range_succ_eq_map, List.map_cons, List.map_map, List.sum_cons,
      List.sum_cons, List.getD_cons_zero, ih]
    rfl

theorem length_flatMap_range_int {β : Type} (n : Nat) (f : Nat → List β) :
    (((List.range n).flatMap f).length : Int)
      = ((List.range n).map (fun i => ((f i).length : Int))).sum := by
  induction n with
  | zero => rfl
  | succ n ih =>
    rw [List.range_succ, List.flatMap_append, List.length_append, List.map_append,
      List.sum_append, Nat.cast_add, ih]
    simp

theorem map_range_congr {β : Type} (n : Nat) (f g : Nat → β) (h : ∀ i, i < n → f i = g i) :
    (List.range n).map f = (List.range n).map g := by
  apply List.map_congr_left
  intro i hi
  exact h i (List.mem_range.mp hi)

/-- Under the invariant the total is the number of nodes in the table. -/
theorem entries_length_eq_total (hash : K → Nat) (s : HashTable K V) (hi : Inv hash s) :
    (s.entries.length : Int) = s.total_table_size_ := by
  rw [entries_eq_parts hash s hi, length_flatMap_range_int, hi.total_eq,
    sum_eq_sum_range_getD s.items_in_part_, hi.items_len]
  congr 1
  apply map_range_congr
  intro p hp
  exact (hi.count_eq p hp).symm

theorem drain_buckets_of_empty (n : Nat) : ∀ (arr : List (List (node K V))) (i : Nat),
    (∀ j, j < n → arr.getD (i + j) [] = []) → drain_buckets arr i n = (arr, []) := by
  induction n with
  | zero => intro arr i _; rfl
  | succ n ih =>
    intro arr i h
    unfold drain_buckets
    have h0 : arr.getD i [] = [] := h 0 (Nat.succ_pos n)
    rw [h0]
    apply ih arr (i + 1)
    intro j hj
    rw [show i + 1 + j = i + (j + 1) by omega]
    exact h (j + 1) (by omega)

theorem set_getD_self (l : List Int) : ∀ (i : Nat), (l.set i (l.getD i 0)) = l := by
  induction l with
  | nil => intro i; rfl
  | cons a l ih =>
    intro i
    cases i with
    | zero => rfl
    | succ i =>
      rw [List.set_cons_succ, List.getD_cons_succ, ih i]

theorem part_nodes_nil_of_count (arr : List (List (node K V))) (b p : Nat)
    (h : part_nodes arr b p = []) : ∀ j, j < b → arr.getD (p * b + j) [] = [] := by
  intro j hj
  unfold part_nodes at h
  rw [List.flatMap_eq_nil_iff] at h
  exact h j (List.mem_range.mpr hj)

end CountFacts
end c7a

namespace c7a
section CountClaims
variable {K V : Type} [DecidableEq K]

/-- C20: in every reachable state each counter `items_in_part_[p]` is the number of nodes
in the chains of the buckets `p * b .. (p + 1) * b - 1`, every bucket of index `≥ P * b`
is empty, and `Size()` is the number of nodes stored in the table. -/
theorem counters_count_nodes (hash : K → Nat) (key_extractor_ : V → K)
    (reduce_function_ : V → V → V) (s : HashTable K V)
    (h : Reachable hash key_extractor_ reduce_function_ s) :
    (∀ p, p < s.num_partitions_ →
      s.items_in_part_.getD p 0
        = ((List.range s.buckets_per_part_).map
            (fun j => ((s.array_.getD (p * s.buckets_per_part_ + j) []).length : Int))).sum) ∧
    (∀ g, s.num_partitions_ * s.buckets_per_part_ ≤ g → s.array_.getD g [] = []) ∧
    s.Size = (s.array_.flatten.length : Int) ∧
    s.Size = ((s.array_.map (fun chain => (chain.length : Int))).sum) := by
  have hi := Reachable_Inv hash key_extractor_ reduce_function_ s h
  have hsz : s.Size = (s.array_.flatten.length : Int) :=
    (entries_length_eq_total hash s hi).symm
  refine ⟨?_, hi.tail_empty, hsz, ?_⟩
  · intro p hp
    rw [hi.count_eq p hp]
    exact length_flatMap_range_int _ _
  · rw [hsz, List.length_flatten, Nat.cast_list_sum, List.map_map]
    rfl

/-- C16: in a reachable state whose per-partition counters are all zero,
`PopLargestSubtable` pushes nothing and returns the state it was called in: every chain,
every counter and `Size()` are unchanged. -/
theorem PopLargestSubtable_noop (hash : K → Nat) (key_extractor_ : V → K)
    (reduce_function_ : V → V → V) (s : HashTable K V)
    (h : Reachable hash key_extractor_ reduce_function_ s)
    (hz : ∀ p, p < s.num_partitions_ → s.items_in_part_.getD p 0 = 0) :
    HashTable.PopLargestSubtable s = (s, []) := by
  have hi := Reachable_Inv hash key_extractor_ reduce_function_ s h
  obtain ⟨hidx, hsz⟩ := largest_part_Inv hash s hi
  have hm : (largest_part s.items_in_part_ s.num_partitions_).1 = 0 := by
    rw [← hsz]; exact hz _ hidx
  have hempty : part_nodes s.array_ s.buckets_per_part_
      (largest_part s.items_in_part_ s.num_partitions_).2 = [] := by
    have hc := hi.count_eq _ hidx
    rw [hz _ hidx] at hc
    exact List.length_eq_zero.mp (by omega)
  have hdrain := drain_buckets_of_empty s.buckets_per_part_ s.array_
    ((largest_part s.items_in_part_ s.num_partitions_).2 * s.buckets_per_part_)
    (part_nodes_nil_of_count _ _ _ hempty)
  have hset : s.items_in_part_.set (largest_part s.items_in_part_ s.num_partitions_).2 0
      = s.items_in_part_ := by
    have := set_getD_self s.items_in_part_ (largest_part s.items_in_part_ s.num_partitions_).2
    rw [hz _ hidx] at this
    exact this
  show (({ s with
      array_ := (drain_buckets s.array_
        ((largest_part s.items_in_part_ s.num_partitions_).2 * s.buckets_per_part_)
        s.buckets_per_part_).1
      items_in_part_ :=
        s.items_in_part_.set (largest_part s.items_in_part_ s.num_partitions_).2 0
      total_table_size_ :=
        s.total_table_size_ - (largest_part s.items_in_part_ s.num_partitions_).1 }
      : HashTable K V),
    (drain_buckets s.array_
        ((largest_part s.items_in_part_ s.num_partitions_).2 * s.buckets_per_part_)
        s.buckets_per_part_).2.map node.value) = (s, [])
  rw [hdrain, hset, hm, sub_zero]
  rfl

end CountClaims
end c7a

namespace c7a
section BoundFacts
variable {K V : Type}

theorem sum_nonpos_of_getD (l : List Int) (h : ∀ i, i < l.length → l.getD i 0 ≤ 0) :
    l.sum ≤ 0 := by
  induction l with
  | nil => exact le_refl 0
  | cons a l ih =>
    rw [List.sum_cons]
    have h0 : a ≤ 0 := h 0 (Nat.succ_pos _)
    have hl : l.sum ≤ 0 := ih (fun i hi => h (i + 1) (Nat.succ_lt_succ hi))
    omega

/-- The selected partition holds at least one node as soon as the total is positive. -/
theorem largest_part_pos (hash : K → Nat) (s : HashTable K V) (hi : Inv hash s)
    (hpos : 0 < s.total_table_size_) :
    0 < (largest_part s.items_in_part_ s.num_partitions_).1 := by
  obtain ⟨hle, hcase⟩ := largest_part_spec s.items_in_part_ s.num_partitions_
  rcases hcase with ⟨h0, _⟩ | ⟨hp, _⟩
  · exfalso
    have hs := sum_nonpos_of_getD s.items_in_part_ (by
      intro i hi2
      rw [hi.items_len] at hi2
      have := hle i hi2
      rw [h0] at this
      exact this)
    rw [← hi.total_eq] at hs
    omega
  · exact hp

theorem largest_part_nonneg (items : List Int) (n : Nat) : 0 ≤ (largest_part items n).1 := by
  obtain ⟨_, hcase⟩ := largest_part_spec items n
  rcases hcase with ⟨h0, _⟩ | ⟨hp, _⟩
  · rw [h0]
  · exact le_of_lt hp

variable [DecidableEq K]

theorem Insert_update_total (hash : K → Nat) (ke : V → K) (rf : V → V → V) (s : HashTable K V)
    (p : V) :
    (HashTable.Insert_update hash ke rf s p).total_table_size_ = s.total_table_size_ ∨
    (HashTable.Insert_update hash ke rf s p).total_table_size_ = s.total_table_size_ + 1 := by
  rw [Insert_update_eq]
  split
  · exact Or.inl rfl
  · exact Or.inr rfl

/-- Whatever the state, the total after `Insert` is at most `max(max_table_size_, 0)` if it
was so before. -/
theorem Insert_bounded (hash : K → Nat) (ke : V → K) (rf : V → V → V) (s : HashTable K V)
    (p : V) (hi : Inv hash s) (hb : s.total_table_size_ ≤ max s.max_table_size_ 0) :
    (HashTable.Insert hash ke rf s p).1.total_table_size_
        ≤ max (HashTable.Insert hash ke rf s p).1.max_table_size_ 0 ∧
    (HashTable.Insert hash ke rf s p).1.max_table_size_ = s.max_table_size_ := by
  have hi1 := Inv_Insert_update hash ke rf s p hi
  obtain ⟨_, _, hmax⟩ := Insert_update_params hash ke rf s p
  have htot := Insert_update_total hash ke rf s p
  by_cases hsp : (HashTable.Insert_update hash ke rf s p).total_table_size_
      > (HashTable.Insert_update hash ke rf s p).max_table_size_
  · rw [Insert_of_spill hash ke rf s p hsp]
    show (HashTable.Insert_update hash ke rf s p).total_table_size_
        - (largest_part (HashTable.Insert_update hash ke rf s p).items_in_part_
            (HashTable.Insert_update hash ke rf s p).num_partitions_).1
        ≤ max (HashTable.Insert_update hash ke rf s p).max_table_size_ 0 ∧
      (HashTable.Insert_update hash ke rf s p).max_table_size_ = s.max_table_size_
    refine ⟨?_, hmax⟩
    rw [hmax]
    have hnn := largest_part_nonneg (HashTable.Insert_update hash ke rf s p).items_in_part_
      (HashTable.Insert_update hash ke rf s p).num_partitions_
    by_cases hpos : 0 < (HashTable.Insert_update hash ke rf s p).total_table_size_
    · have := largest_part_pos hash _ hi1 hpos
      omega
    · have : (0 : Int) ≤ max s.max_table_size_ 0 := le_max_right _ _
      omega
  · rw [Insert_of_no_spill hash ke rf s p (not_lt.mp hsp)]
    refine ⟨?_, hmax⟩
    show (HashTable.Insert_update hash ke rf s p).total_table_size_
      ≤ max (HashTable.Insert_update hash ke rf s p).max_table_size_ 0
    exact le_trans (not_lt.mp hsp) (le_max_left _ _)

theorem Reachable_bounded (hash : K → Nat) (ke : V → K) (rf : V → V → V) (s : HashTable K V)
    (h : Reachable hash ke rf s) : s.total_table_size_ ≤ max s.max_table_size_ 0 := by
  induction h with
  | construct thr P s hc =>
    obtain ⟨_, _, rfl⟩ := construct_ok thr P s hc
    exact le_max_right _ _
  | Insert s p hr ih =>
    exact (Insert_bounded hash ke rf s p (Reachable_Inv hash ke rf s hr) ih).1
  | PopLargestSubtable s hr ih =>
    show s.total_table_size_ - (largest_part s.items_in_part_ s.num_partitions_).1
      ≤ max s.max_table_size_ 0
    have := largest_part_nonneg s.items_in_part_ s.num_partitions_
    omega
  | Flush s hr ih =>
    exact le_max_right _ _

end BoundFacts
end c7a

namespace c7a
section InsertBranches
variable {K V : Type}

theorem ext_getD_chain (l1 l2 : List (List (node K V))) (hlen : l1.length = l2.length)
    (h : ∀ g, l1.getD g [] = l2.getD g []) : l1 = l2 := by
  apply List.ext_getElem hlen
  intro n h1 h2
  have := h n
  rw [List.getD_eq_getElem _ _ h1, List.getD_eq_getElem _ _ h2] at this
  exact this

variable [DecidableEq K]

theorem map_reduce_of_absent (rf : V → V → V) (key : K) (p : V) (c : List (node K V))
    (h : ∀ m ∈ c, m.key ≠ key) :
    c.map (fun n => if n.key = key then { n with value := rf n.value p } else n) = c := by
  induction c with
  | nil => rfl
  | cons n rest ih =>
    rw [List.map_cons, if_neg (h n (List.mem_cons_self _ _)),
      ih (fun m hm => h m (List.mem_cons_of_mem _ hm))]

theorem scan_chain_eq_map (rf : V → V → V) (key : K) (p : V) :
    ∀ (c c2 : List (node K V)), scan_chain rf key p c = some c2 → (c.map node.key).Nodup →
      c2 = c.map (fun n => if n.key = key then { n with value := rf n.value p } else n) := by
  intro c
  induction c with
  | nil => intro c2 h; simp [scan_chain] at h
  | cons n rest ih =>
    intro c2 h hnd
    rw [List.map_cons, List.nodup_cons] at hnd
    unfold scan_chain at h
    by_cases hkn : key = n.key
    · rw [if_pos hkn] at h
      cases h
      rw [List.map_cons, if_pos hkn.symm]
      rw [map_reduce_of_absent rf key p rest]
      intro m hm hmk
      apply hnd.1
      rw [← hkn, ← hmk]
      exact List.mem_map_of_mem _ hm
    · rw [if_neg hkn] at h
      cases hr : scan_chain rf key p rest with
      | none => rw [hr] at h; cases h
      | some r =>
        rw [hr] at h
        cases h
        rw [List.map_cons, if_neg (fun e => hkn e.symm), ih r hr hnd.2]

theorem Insert_update_of_absent (hash : K → Nat) (ke : V → K) (rf : V → V → V)
    (s : HashTable K V) (hi : Inv hash s) (p : V) (hnew : s.entries_of (ke p) = []) :
    HashTable.Insert_update hash ke rf s p
      = { s with
          array_ := s.array_.set (hash_result.of hash (ke p) s).global_index
            ({ key := ke p, value := p }
              :: s.array_.getD (hash_result.of hash (ke p) s).global_index [])
          items_in_part_ := incr_at s.items_in_part_ (hash_result.of hash (ke p) s).partition_id
          total_table_size_ := s.total_table_size_ + 1 } := by
  rw [entries_of_home hash s hi (ke p), List.filter_eq_nil_iff] at hnew
  have hs : scan_chain rf (ke p) p
      (s.array_.getD (hash_result.of hash (ke p) s).global_index []) = none := by
    rw [scan_chain_none]
    intro n hn hk
    exact hnew n hn (decide_eq_true hk)
  rw [Insert_update_eq, hs]

theorem Insert_update_of_resident (hash : K → Nat) (ke : V → K) (rf : V → V → V)
    (s : HashTable K V) (hi : Inv hash s) (p : V) (hres : s.entries_of (ke p) ≠ []) :
    HashTable.Insert_update hash ke rf s p
      = { s with
          array_ := s.array_.map (fun chain => chain.map
            (fun n => if n.key = ke p then { n with value := rf n.value p } else n)) } := by
  obtain ⟨_, _, _, hglt, hcap⟩ :=
    hash_result_bounds hash s hi.parts_pos hi.parts_le hi.bpp_eq (ke p)
  have hgl : (hash_result.of hash (ke p) s).global_index < s.array_.length := by
    rw [hi.array_len]; omega
  rw [entries_of_home hash s hi (ke p)] at hres
  cases hs : scan_chain rf (ke p) p
      (s.array_.getD (hash_result.of hash (ke p) s).global_index []) with
  | none =>
    exfalso
    apply hres
    rw [List.filter_eq_nil_iff]
    intro n hn hk
    exact (scan_chain_none rf (ke p) p _).mp hs n hn (of_decide_eq_true hk)
  | some c =>
    have hc := scan_chain_eq_map rf (ke p) p _ c hs (hi.nodup _)
    have harr : s.array_.set (hash_result.of hash (ke p) s).global_index c
        = s.array_.map (fun chain => chain.map
            (fun n => if n.key = ke p then { n with value := rf n.value p } else n)) := by
      apply ext_getD_chain
      · rw [List.length_set, List.length_map]
      · intro g
        have hmap := List.getD_map s.array_ ([] : List (node K V)) (n := g)
          (fun chain => chain.map
            (fun n => if n.key = ke p then { n with value := rf n.value p } else n))
        rw [List.map_nil] at hmap
        rw [hmap, getD_set_eq]
        by_cases hg : (hash_result.of hash (ke p) s).global_index = g
        · rw [if_pos ⟨hg, hgl⟩, hc, hg]
        · rw [if_neg (fun h => hg h.1)]
          symm
          apply map_reduce_of_absent
          intro m hm hmk
          apply hg
          rw [← hi.located g m hm, hmk]
    rw [Insert_update_eq, hs, ← harr]

end InsertBranches
end c7a

namespace c7a
section InsertClaims
variable {K V : Type} [DecidableEq K]

theorem entries_of_singleton (hash : K → Nat) (s : HashTable K V) (hi : Inv hash s) (k : K)
    (hres : s.entries_of k ≠ []) : ∃ w, s.entries_of k = [{ key := k, value := w }] := by
  have hlen : (s.entries_of k).length ≤ 1 := by
    rw [entries_of_home hash s hi k]
    exact filter_key_length_le_one _ k (hi.nodup _)
  cases he : s.entries_of k with
  | nil => exact absurd he hres
  | cons n rest =>
    rw [he] at hlen
    have hrest : rest = [] := List.length_eq_zero.mp (by
      rw [List.length_cons] at hlen; omega)
    have hn : n ∈ s.entries_of k := by rw [he]; exact List.mem_cons_self _ _
    have hk : n.key = k := of_decide_eq_true (List.mem_filter.mp hn).2
    refine ⟨n.value, ?_⟩
    rw [hrest, ← hk]

theorem total_pos_of_resident (hash : K → Nat) (s : HashTable K V) (hi : Inv hash s) (k : K)
    (hres : s.entries_of k ≠ []) : 0 < s.total_table_size_ := by
  have hne : s.entries ≠ [] := by
    intro he
    apply hres
    unfold HashTable.entries_of
    rw [he]
    rfl
  have hpos : 0 < s.entries.length := List.length_pos.mpr hne
  have := entries_length_eq_total hash s hi
  omega

/-- C14: in every reachable state, `Insert(v)` of a value whose key is resident replaces
the value `w` of that entry by `reduce_function_(w, v)`, resident value first, and changes
nothing else: every chain keeps its keys, length, order and the other entries' values
(the new array is the old one with that one value replaced), the counters and `Size()`
are unchanged and nothing is pushed to the sink. -/
theorem Insert_resident_key_reduces (hash : K → Nat) (key_extractor_ : V → K)
    (reduce_function_ : V → V → V) (s : HashTable K V)
    (h : Reachable hash key_extractor_ reduce_function_ s) (v : V)
    (hres : s.entries_of (key_extractor_ v) ≠ []) :
    (HashTable.Insert hash key_extractor_ reduce_function_ s v).2 = [] ∧
    (HashTable.Insert hash key_extractor_ reduce_function_ s v).1
      = { s with
          array_ := s.array_.map (fun chain => chain.map
            (fun n => if n.key = key_extractor_ v
              then { n with value := reduce_function_ n.value v } else n)) } ∧
    (∃ w, s.entries_of (key_extractor_ v) = [{ key := key_extractor_ v, value := w }] ∧
      (HashTable.Insert hash key_extractor_ reduce_function_ s v).1.entries_of
          (key_extractor_ v)
        = [{ key := key_extractor_ v, value := reduce_function_ w v }]) ∧
    (∀ k, k ≠ key_extractor_ v →
      (HashTable.Insert hash key_extractor_ reduce_function_ s v).1.entries_of k
        = s.entries_of k) ∧
    (∀ g, ((HashTable.Insert hash key_extractor_ reduce_function_ s v).1.array_.getD g []).map
        node.key = (s.array_.getD g []).map node.key) ∧
    (HashTable.Insert hash key_extractor_ reduce_function_ s v).1.items_in_part_
      = s.items_in_part_ ∧
    (HashTable.Insert hash key_extractor_ reduce_function_ s v).1.Size = s.Size := by
  have hi := Reachable_Inv hash key_extractor_ reduce_function_ s h
  have hb := Reachable_bounded hash key_extractor_ reduce_function_ s h
  have hpos := total_pos_of_resident hash s hi _ hres
  have hu := Insert_update_of_resident hash key_extractor_ reduce_function_ s hi v hres
  have hns : (HashTable.Insert_update hash key_extractor_ reduce_function_ s v).total_table_size_
      ≤ (HashTable.Insert_update hash key_extractor_ reduce_function_ s v).max_table_size_ := by
    rw [hu]
    show s.total_table_size_ ≤ s.max_table_size_
    rcases le_max_iff.mp hb with h1 | h1
    · exact h1
    · omega
  have hins := Insert_of_no_spill hash key_extractor_ reduce_function_ s v hns
  obtain ⟨hother, _, hold⟩ :=
    entries_of_Insert_update hash key_extractor_ reduce_function_ s hi v (key_extractor_ v)
  obtain ⟨w, hw⟩ := entries_of_singleton hash s hi _ hres
  rw [hins]
  refine ⟨rfl, hu, ⟨w, hw, hold w hw⟩, ?_, ?_, ?_, ?_⟩
  · intro k hk
    exact (entries_of_Insert_update hash key_extractor_ reduce_function_ s hi v k).1 hk
  · intro g
    show ((HashTable.Insert_update hash key_extractor_ reduce_function_ s v).array_.getD g
      []).map node.key = _
    rw [hu]
    have hmap := List.getD_map s.array_ ([] : List (node K V)) (n := g)
      (fun chain => chain.map
        (fun n => if n.key = key_extractor_ v
          then { n with value := reduce_function_ n.value v } else n))
    rw [List.map_nil] at hmap
    show ((s.array_.map _).getD g []).map node.key = _
    rw [hmap, List.map_map]
    apply List.map_congr_left
    intro n _
    show (if n.key = key_extractor_ v
      then ({ n with value := reduce_function_ n.value v } : node K V) else n).key = n.key
    split <;> rfl
  · show (HashTable.Insert_update hash key_extractor_ reduce_function_ s v).items_in_part_ = _
    rw [hu]
  · show (HashTable.Insert_update hash key_extractor_ reduce_function_ s v).total_table_size_
      = s.total_table_size_
    rw [hu]

/-- C15: in every reachable state, for a value `v` whose key `k` is not resident, the part
of `Insert(v)` before the spill check links a new node `(k, v)` at the head of the chain
of bucket `global_index(k)`, in front of the nodes already there (none if the chain was
empty), adds 1 to the counter of `partition_id(k)` and to the total, and leaves every
other chain and counter as it was. -/
theorem Insert_update_new_key_prepends (hash : K → Nat) (key_extractor_ : V → K)
    (reduce_function_ : V → V → V) (s : HashTable K V)
    (h : Reachable hash key_extractor_ reduce_function_ s) (v : V)
    (hnew : s.entries_of (key_extractor_ v) = []) :
    (HashTable.Insert_update hash key_extractor_ reduce_function_ s v).array_.getD
        (hash_result.of hash (key_extractor_ v) s).global_index []
      = { key := key_extractor_ v, value := v }
          :: s.array_.getD (hash_result.of hash (key_extractor_ v) s).global_index [] ∧
    (∀ g, g ≠ (hash_result.of hash (key_extractor_ v) s).global_index →
      (HashTable.Insert_update hash key_extractor_ reduce_function_ s v).array_.getD g []
        = s.array_.getD g []) ∧
    (HashTable.Insert_update hash key_extractor_ reduce_function_ s v).items_in_part_.getD
        (hash_result.of hash (key_extractor_ v) s).partition_id 0
      = s.items_in_part_.getD (hash_result.of hash (key_extractor_ v) s).partition_id 0 + 1 ∧
    (∀ q, q ≠ (hash_result.of hash (key_extractor_ v) s).partition_id →
      (HashTable.Insert_update hash key_extractor_ reduce_function_ s v).items_in_part_.getD q 0
        = s.items_in_part_.getD q 0) ∧
    (HashTable.Insert_update hash key_extractor_ reduce_function_ s v).Size = s.Size + 1 ∧
    (HashTable.Insert_update hash key_extractor_ reduce_function_ s v).array_.length
      = s.array_.length ∧
    (HashTable.Insert_update hash key_extractor_ reduce_function_ s v).items_in_part_.length
      = s.items_in_part_.length := by
  have hi := Reachable_Inv hash key_extractor_ reduce_function_ s h
  obtain ⟨hpid, _, _, hglt, hcap⟩ :=
    hash_result_bounds hash s hi.parts_pos hi.parts_le hi.bpp_eq (key_extractor_ v)
  have hgl : (hash_result.of hash (key_extractor_ v) s).global_index < s.array_.length := by
    rw [hi.array_len]; omega
  have hpl : (hash_result.of hash (key_extractor_ v) s).partition_id
      < s.items_in_part_.length := by
    rw [hi.items_len]; exact hpid
  rw [Insert_update_of_absent hash key_extractor_ reduce_function_ s hi v hnew]
  refine ⟨?_, ?_, ?_, ?_, rfl, ?_, ?_⟩
  · show (s.array_.set _ _).getD _ [] = _
    rw [getD_set_eq, if_pos ⟨rfl, hgl⟩]
  · intro g hg
    show (s.array_.set _ _).getD g [] = _
    rw [getD_set_eq, if_neg (fun hc => hg hc.1.symm)]
  · show (incr_at s.items_in_part_ _).getD _ 0 = _
    rw [incr_at_getD _ _ _ hpl, if_pos rfl]
  · intro q hq
    show (incr_at s.items_in_part_ _).getD q 0 = _
    rw [incr_at_getD _ _ _ hpl, if_neg (fun hc => hq hc.symm)]
  · show (s.array_.set _ _).length = _
    rw [List.length_set]
  · show (incr_at s.items_in_part_ _).length = _
    rw [incr_at_length]

end InsertClaims
end c7a

namespace c7a
section BoundClaims
variable {K V : Type}

theorem PopLargestSubtable_pushed_length (hash : K → Nat) (s : HashTable K V)
    (hi : Inv hash s) :
    ((HashTable.PopLargestSubtable s).2.length : Int)
      = (largest_part s.items_in_part_ s.num_partitions_).1 := by
  obtain ⟨hidx, hsz⟩ := largest_part_Inv hash s hi
  show (((drain_buckets s.array_ (s.p_idx * s.buckets_per_part_)
    s.buckets_per_part_).2.map node.value).length : Int) = _
  rw [List.length_map, drain_buckets_nodes, ← hsz]
  exact (hi.count_eq _ hidx).symm

variable [DecidableEq K]

theorem Reachable_Insert_update_bounded (hash : K → Nat) (ke : V → K) (rf : V → V → V)
    (s : HashTable K V) (h : Reachable hash ke rf s) (hthr : 0 ≤ s.max_table_size_) (p : V) :
    (HashTable.Insert_update hash ke rf s p).total_table_size_ ≤ s.max_table_size_ + 1 ∧
    (HashTable.Insert_update hash ke rf s p).max_table_size_ = s.max_table_size_ := by
  have hb := Reachable_bounded hash ke rf s h
  rw [max_eq_left hthr] at hb
  obtain ⟨_, _, hmax⟩ := Insert_update_params hash ke rf s p
  rcases Insert_update_total hash ke rf s p with h1 | h1
  · exact ⟨by omega, hmax⟩
  · exact ⟨by omega, hmax⟩

/-- C19: in every state reached from a freshly constructed table whose `max_table_size_`
is not negative (3 in the source), `Size() ≤ max_table_size_`; a spill triggered inside
`Insert` pushes at least one value; the table holds at most `max_table_size_ + 1` nodes
at the spill check of an `Insert`, and at most `max_table_size_` when `Insert` or `Flush`
returns. -/
theorem Size_le_max_table_size (hash : K → Nat) (key_extractor_ : V → K)
    (reduce_function_ : V → V → V) (s : HashTable K V)
    (h : Reachable hash key_extractor_ reduce_function_ s) (hthr : 0 ≤ s.max_table_size_) :
    s.Size ≤ s.max_table_size_ ∧
    (∀ p, HashTable.spills hash key_extractor_ reduce_function_ s p = true →
      1 ≤ (HashTable.Insert hash key_extractor_ reduce_function_ s p).2.length) ∧
    (∀ p, (HashTable.Insert_update hash key_extractor_ reduce_function_ s p).Size
        ≤ s.max_table_size_ + 1 ∧
      ((HashTable.Insert_update hash key_extractor_ reduce_function_ s p).entries.length : Int)
        ≤ s.max_table_size_ + 1) ∧
    (∀ p, (HashTable.Insert hash key_extractor_ reduce_function_ s p).1.Size
        ≤ s.max_table_size_ ∧
      ((HashTable.Insert hash key_extractor_ reduce_function_ s p).1.entries.length : Int)
        ≤ s.max_table_size_) ∧
    (HashTable.Flush s).1.Size ≤ s.max_table_size_ := by
  have hi := Reachable_Inv hash key_extractor_ reduce_function_ s h
  have hb := Reachable_bounded hash key_extractor_ reduce_function_ s h
  rw [max_eq_left hthr] at hb
  refine ⟨hb, ?_, ?_, ?_, hthr⟩
  · intro p hsp
    have hi1 := Inv_Insert_update hash key_extractor_ reduce_function_ s p hi
    obtain ⟨_, hmax⟩ := Reachable_Insert_update_bounded hash key_extractor_ reduce_function_
      s h hthr p
    have hgt : (HashTable.Insert_update hash key_extractor_ reduce_function_ s p).total_table_size_
        > (HashTable.Insert_update hash key_extractor_ reduce_function_ s p).max_table_size_ :=
      of_decide_eq_true hsp
    have hpos := largest_part_pos hash _ hi1 (by omega)
    have hlen := PopLargestSubtable_pushed_length hash _ hi1
    rw [Insert_of_spill hash key_extractor_ reduce_function_ s p hgt]
    omega
  · intro p
    have hi1 := Inv_Insert_update hash key_extractor_ reduce_function_ s p hi
    obtain ⟨hle, _⟩ := Reachable_Insert_update_bounded hash key_extractor_ reduce_function_
      s h hthr p
    refine ⟨hle, ?_⟩
    rw [entries_length_eq_total hash _ hi1]
    exact hle
  · intro p
    have hr := Reachable.Insert s p h
    have hb2 := Reachable_bounded hash key_extractor_ reduce_function_ _ hr
    obtain ⟨_, hmax⟩ := Insert_bounded hash key_extractor_ reduce_function_ s p hi
      (by rw [max_eq_left hthr]; exact hb)
    rw [hmax, max_eq_left hthr] at hb2
    refine ⟨hb2, ?_⟩
    rw [entries_length_eq_total hash _
      (Reachable_Inv hash key_extractor_ reduce_function_ _ hr)]
    exact hb2

theorem Insert_all_reachable_max (hash : K → Nat) (ke : V → K) (rf : V → V → V)
    (vs : List V) : ∀ (s : HashTable K V), Inv hash s →
      s.total_table_size_ ≤ max s.max_table_size_ 0 →
      (HashTable.Insert_all hash ke rf s vs).1.total_table_size_ ≤ max s.max_table_size_ 0 ∧
      (HashTable.Insert_all hash ke rf s vs).1.max_table_size_ = s.max_table_size_ := by
  induction vs with
  | nil => intro s _ hb; exact ⟨hb, rfl⟩
  | cons p ps ih =>
    intro s hi hb
    obtain ⟨h1, h2⟩ := Insert_bounded hash ke rf s p hi hb
    obtain ⟨h3, h4⟩ := ih _ (Inv_Insert hash ke rf s p hi) h1
    rw [h2] at h3 h4
    exact ⟨h3, h4⟩

/-- C17 (amended): `Insert` checks the budget once, and on a table grown from a freshly
constructed one with a non-negative `max_table_size_` (3 in the source) that is enough:
after every sequence of `Insert` calls `Size() ≤ max_table_size_`, the total at the
spill check is at most `max_table_size_ + 1`, and an `Insert` that spills returns with
`Size() ≤ max_table_size_`. -/
theorem Insert_all_Size_le_max (hash : K → Nat) (key_extractor_ : V → K)
    (reduce_function_ : V → V → V) (max_table_size_ : Int) (P : Nat) (s0 : HashTable K V)
    (hc : HashTable.construct max_table_size_ P = Except.ok s0)
    (hthr : 0 ≤ max_table_size_) (vs : List V) :
    (HashTable.Insert_all hash key_extractor_ reduce_function_ s0 vs).1.Size
      ≤ max_table_size_ ∧
    (∀ p, (HashTable.Insert_update hash key_extractor_ reduce_function_
        (HashTable.Insert_all hash key_extractor_ reduce_function_ s0 vs).1 p).Size
      ≤ max_table_size_ + 1) ∧
    (∀ p, HashTable.spills hash key_extractor_ reduce_function_
        (HashTable.Insert_all hash key_extractor_ reduce_function_ s0 vs).1 p = true →
      (HashTable.Insert hash key_extractor_ reduce_function_
        (HashTable.Insert_all hash key_extractor_ reduce_function_ s0 vs).1 p).1.Size
      ≤ max_table_size_) := by
  have hr := Reachable_Insert_all hash key_extractor_ reduce_function_ vs s0
    (Reachable.construct _ _ _ hc)
  have hi0 := Inv_construct hash _ _ _ hc
  obtain ⟨_, _, hs0⟩ := construct_ok _ _ _ hc
  have hmax0 : s0.max_table_size_ = max_table_size_ := by rw [hs0]
  have hb0 : s0.total_table_size_ ≤ max s0.max_table_size_ 0 := by
    rw [hs0]; exact le_max_right _ _
  obtain ⟨hb, hmax⟩ := Insert_all_reachable_max hash key_extractor_ reduce_function_ vs s0
    hi0 hb0
  rw [hmax0] at hb hmax
  rw [max_eq_left hthr] at hb
  refine ⟨hb, ?_, ?_⟩
  · intro p
    have := (Reachable_Insert_update_bounded hash key_extractor_ reduce_function_ _ hr
      (by rw [hmax]; exact hthr) p).1
    rw [hmax] at this
    exact this
  · intro p _
    have hb2 := Reachable_bounded hash key_extractor_ reduce_function_ _
      (Reachable.Insert _ p hr)
    obtain ⟨_, hmax2⟩ := Insert_bounded hash key_extractor_ reduce_function_ _ p
      (Reachable_Inv hash key_extractor_ reduce_function_ _ hr)
      (by rw [hmax, max_eq_left hthr]; exact hb)
    rw [hmax2, hmax, max_eq_left hthr] at hb2
    exact hb2

/-- C17 (as stated, refuted): with the threshold 3 of the source there are no key type,
value type, hash, key extractor, reduce function, partition count and sequence of
`Insert` calls on a fresh table after which an `Insert` spills and returns with
`Size() > 3`. -/
theorem no_Insert_returns_above_threshold :
    ¬ ∃ (K V : Type) (_ : DecidableEq K) (hash : K → Nat) (key_extractor_ : V → K)
        (reduce_function_ : V → V → V) (P : Nat) (s0 : HashTable K V) (vs : List V) (p : V),
      HashTable.new P = Except.ok s0 ∧
      HashTable.spills hash key_extractor_ reduce_function_
        (HashTable.Insert_all hash key_extractor_ reduce_function_ s0 vs).1 p = true ∧
      (HashTable.Insert hash key_extractor_ reduce_function_
        (HashTable.Insert_all hash key_extractor_ reduce_function_ s0 vs).1 p).1.Size > 3 := by
  rintro ⟨K, V, inst, hash, ke, rf, P, s0, vs, p, hc, _, hgt⟩
  have hc3 : HashTable.construct 3 P = Except.ok s0 := hc
  have hr := Reachable_Insert_all hash ke rf vs s0 (Reachable.construct 3 P s0 hc3)
  have hi0 := Inv_construct hash _ _ _ hc3
  obtain ⟨_, _, hs0⟩ := construct_ok _ _ _ hc3
  have hmax0 : s0.max_table_size_ = 3 := by rw [hs0]
  have hb0 : s0.total_table_size_ ≤ max s0.max_table_size_ 0 := by
    rw [hs0]; exact le_max_right _ _
  obtain ⟨hb, hmax⟩ := Insert_all_reachable_max hash ke rf vs s0 hi0 hb0
  obtain ⟨hb2, hmax2⟩ := Insert_bounded hash ke rf _ p (Reachable_Inv hash ke rf _ hr)
    (by rw [hmax]; exact hb)
  rw [hmax2, hmax, hmax0, max_eq_left (by decide : (0 : Int) ≤ 3)] at hb2
  have hgt2 : (HashTable.Insert hash ke rf
      (HashTable.Insert_all hash ke rf s0 vs).1 p).1.total_table_size_ > 3 := hgt
  omega

end BoundClaims
end c7a

namespace c7a
section TallyFacts
variable {K V : Type}

theorem Flush_pushed_length (hash : K → Nat) (s : HashTable K V) (hi : Inv hash s) :
    ((HashTable.Flush s).2.length : Int) = s.total_table_size_ := by
  show (((HashTable.Flush_nodes s).2.map node.value).length : Int) = _
  rw [List.length_map, Flush_nodes_eq, ← entries_eq_parts hash s hi]
  exact entries_length_eq_total hash s hi

variable [DecidableEq K]

/-- What the bookkeeping of a run keeps true. -/
theorem tally_Insert_step (hash : K → Nat) (ke : V → K) (rf : V → V → V) (s : HashTable K V)
    (t : tally K) (p : V) (hi : Inv hash s)
    (htot : s.total_table_size_
      = (t.distinct : Int) + t.recreated - t.evicted - t.drained)
    (hres : ∀ k, s.entries_of k ≠ [] → k ∈ t.keys) :
    (HashTable.Insert hash ke rf s p).1.total_table_size_
      = ((tally.Insert hash ke rf s t p).distinct : Int)
        + (tally.Insert hash ke rf s t p).recreated
        - (tally.Insert hash ke rf s t p).evicted - (tally.Insert hash ke rf s t p).drained ∧
    (∀ k, (HashTable.Insert hash ke rf s p).1.entries_of k ≠ [] →
      k ∈ (tally.Insert hash ke rf s t p).keys) := by
  have hi1 := Inv_Insert_update hash ke rf s p hi
  -- the update part
  have hupd : (HashTable.Insert_update hash ke rf s p).total_table_size_
      = (((ke p :: t.keys).dedup.length : Nat) : Int)
        + ((t.recreated
            + (if (s.entries_of (ke p)).isEmpty = true ∧ ke p ∈ t.keys then 1 else 0) : Nat) : Int)
        - t.evicted - t.drained := by
    unfold tally.distinct at htot
    by_cases hnew : s.entries_of (ke p) = []
    · rw [Insert_update_of_absent hash ke rf s hi p hnew]
      show s.total_table_size_ + 1 = _
      have hemp : (s.entries_of (ke p)).isEmpty = true := by rw [hnew]; rfl
      by_cases hmem : ke p ∈ t.keys
      · rw [if_pos ⟨hemp, hmem⟩, List.dedup_cons_of_mem hmem]
        push_cast
        omega
      · rw [if_neg (fun hc => hmem hc.2), List.dedup_cons_of_not_mem hmem, List.length_cons]
        push_cast
        omega
    · rw [Insert_update_of_resident hash ke rf s hi p hnew]
      show s.total_table_size_ = _
      have hemp : ¬ ((s.entries_of (ke p)).isEmpty = true) := by
        intro hc
        exact hnew (List.isEmpty_iff.mp hc)
      rw [if_neg (fun hc => hemp hc.1), List.dedup_cons_of_mem (hres _ hnew)]
      push_cast
      omega
  have hres1 : ∀ k, (HashTable.Insert_update hash ke rf s p).entries_of k ≠ [] →
      k ∈ ke p :: t.keys := by
    intro k hk
    by_cases hkk : k = ke p
    · rw [hkk]; exact List.mem_cons_self _ _
    · rw [(entries_of_Insert_update hash ke rf s hi p k).1 hkk] at hk
      exact List.mem_cons_of_mem _ (hres k hk)
  by_cases hsp : (HashTable.Insert_update hash ke rf s p).total_table_size_
      > (HashTable.Insert_update hash ke rf s p).max_table_size_
  · have hins := Insert_of_spill hash ke rf s p hsp
    have hlen := PopLargestSubtable_pushed_length hash _ hi1
    unfold tally.Insert tally.distinct
    rw [hins]
    constructor
    · show (HashTable.Insert_update hash ke rf s p).total_table_size_
          - (largest_part (HashTable.Insert_update hash ke rf s p).items_in_part_
              (HashTable.Insert_update hash ke rf s p).num_partitions_).1 = _
      rw [← hlen, hupd]
      push_cast
      omega
    · intro k hk
      apply hres1 k
      intro hc
      obtain ⟨h1, _⟩ := PopLargestSubtable_nodes_entries_of hash _ hi1 k
      rw [hc] at h1
      have h2 := List.append_eq_nil.mp h1
      exact hk h2.2
  · have hins := Insert_of_no_spill hash ke rf s p (not_lt.mp hsp)
    unfold tally.Insert tally.distinct
    rw [hins]
    constructor
    · show (HashTable.Insert_update hash ke rf s p).total_table_size_
        = (((ke p :: t.keys).dedup.length : Nat) : Int)
          + ((t.recreated
              + (if (s.entries_of (ke p)).isEmpty = true ∧ ke p ∈ t.keys then 1 else 0)
              : Nat) : Int)
          - ((t.evicted + 0 : Nat) : Int) - t.drained
      rw [hupd]
      push_cast
      omega
    · exact hres1

theorem tally_Flush_step (hash : K → Nat) (s : HashTable K V) (t : tally K) (hi : Inv hash s)
    (htot : s.total_table_size_
      = (t.distinct : Int) + t.recreated - t.evicted - t.drained) :
    (HashTable.Flush s).1.total_table_size_
      = ((tally.Flush s t).distinct : Int) + (tally.Flush s t).recreated
        - (tally.Flush s t).evicted - (tally.Flush s t).drained ∧
    (∀ k, (HashTable.Flush s).1.entries_of k ≠ [] → k ∈ (tally.Flush s t).keys) := by
  have hlen := Flush_pushed_length hash s hi
  constructor
  · show (0 : Int) = (t.distinct : Int) + t.recreated - t.evicted
      - ((t.drained + (HashTable.Flush s).2.length : Nat) : Int)
    push_cast
    omega
  · intro k hk
    exact absurd (Flush_nodes_entries_of hash s hi k).2 hk

theorem run_tally (hash : K → Nat) (ke : V → K) (rf : V → V → V) (cs : List (call V)) :
    ∀ (s : HashTable K V) (t : tally K), Inv hash s →
      s.total_table_size_ = (t.distinct : Int) + t.recreated - t.evicted - t.drained →
      (∀ k, s.entries_of k ≠ [] → k ∈ t.keys) →
      (HashTable.run hash ke rf s t cs).1.total_table_size_
        = ((HashTable.run hash ke rf s t cs).2.distinct : Int)
          + (HashTable.run hash ke rf s t cs).2.recreated
          - (HashTable.run hash ke rf s t cs).2.evicted
          - (HashTable.run hash ke rf s t cs).2.drained := by
  induction cs with
  | nil => intro s t _ htot _; exact htot
  | cons c cs ih =>
    intro s t hi htot hres
    cases c with
    | Insert p =>
      obtain ⟨h1, h2⟩ := tally_Insert_step hash ke rf s t p hi htot hres
      exact ih _ _ (Inv_Insert hash ke rf s p hi) h1 h2
    | Flush =>
      obtain ⟨h1, h2⟩ := tally_Flush_step hash s t hi htot
      exact ih _ _ (Inv_Flush hash s hi) h1 h2

end TallyFacts
end c7a

namespace c7a
section AccountingClaim
variable {K V : Type} [DecidableEq K]

/-- C11 (amended): after any run of `Insert` and `Flush` calls on a freshly constructed
table, `Size()` is the number of distinct keys ever inserted, plus the number of `Insert`
calls that linked a new node for a key inserted before (whose earlier entry had been
evicted or drained), minus the number of entries evicted by spills, minus the number of
entries drained by flushes; when no such re-creation happened it is the number of distinct
keys minus the evicted minus the drained. -/
theorem Size_eq_distinct_plus_recreated (hash : K → Nat) (key_extractor_ : V → K)
    (reduce_function_ : V → V → V) (max_table_size_ : Int) (P : Nat) (s0 : HashTable K V)
    (hc : HashTable.construct max_table_size_ P = Except.ok s0) (cs : List (call V)) :
    (HashTable.run hash key_extractor_ reduce_function_ s0
        { keys := [], recreated := 0, evicted := 0, drained := 0 } cs).1.Size
      = ((HashTable.run hash key_extractor_ reduce_function_ s0
          { keys := [], recreated := 0, evicted := 0, drained := 0 } cs).2.distinct : Int)
        + (HashTable.run hash key_extractor_ reduce_function_ s0
          { keys := [], recreated := 0, evicted := 0, drained := 0 } cs).2.recreated
        - (HashTable.run hash key_extractor_ reduce_function_ s0
          { keys := [], recreated := 0, evicted := 0, drained := 0 } cs).2.evicted
        - (HashTable.run hash key_extractor_ reduce_function_ s0
          { keys := [], recreated := 0, evicted := 0, drained := 0 } cs).2.drained ∧
    ((HashTable.run hash key_extractor_ reduce_function_ s0
        { keys := [], recreated := 0, evicted := 0, drained := 0 } cs).2.recreated = 0 →
      (HashTable.run hash key_extractor_ reduce_function_ s0
          { keys := [], recreated := 0, evicted := 0, drained := 0 } cs).1.Size
        = ((HashTable.run hash key_extractor_ reduce_function_ s0
            { keys := [], recreated := 0, evicted := 0, drained := 0 } cs).2.distinct : Int)
          - (HashTable.run hash key_extractor_ reduce_function_ s0
            { keys := [], recreated := 0, evicted := 0, drained := 0 } cs).2.evicted
          - (HashTable.run hash key_extractor_ reduce_function_ s0
            { keys := [], recreated := 0, evicted := 0, drained := 0 } cs).2.drained) := by
  have hi0 := Inv_construct hash _ _ _ hc
  have ht0 := Tracks_construct reduce_function_ _ _ _ hc
  obtain ⟨_, _, hs0⟩ := construct_ok _ _ _ hc
  have hrun := run_tally hash key_extractor_ reduce_function_ cs s0
    { keys := [], recreated := 0, evicted := 0, drained := 0 } hi0
    (by rw [hs0]; rfl)
    (fun k hk => absurd (ht0 k) hk)
  refine ⟨hrun, ?_⟩
  intro h0
  have hrun2 := hrun
  rw [h0] at hrun2
  show (HashTable.run hash key_extractor_ reduce_function_ s0
    { keys := [], recreated := 0, evicted := 0, drained := 0 } cs).1.total_table_size_ = _
  rw [hrun2]
  push_cast
  omega

theorem Size_eq_distinct_plus_recreated_witness :
    (HashTable.run ex_hash ex_key ex_reduce (ex_table 3 3)
        { keys := [], recreated := 0, evicted := 0, drained := 0 }
        [call.Insert 0, call.Insert 1, call.Insert 2, call.Insert 3, call.Insert 0,
          call.Flush, call.Insert 12]).2
      = { keys := [2, 0, 3, 2, 1, 0], recreated := 2, evicted := 2, drained := 3 } ∧
    (HashTable.run ex_hash ex_key ex_reduce (ex_table 3 3)
        { keys := [], recreated := 0, evicted := 0, drained := 0 }
        [call.Insert 0, call.Insert 1, call.Insert 2, call.Insert 3, call.Insert 0,
          call.Flush, call.Insert 12]).1.Size
      = ((HashTable.run ex_hash ex_key ex_reduce (ex_table 3 3)
          { keys := [], recreated := 0, evicted := 0, drained := 0 }
          [call.Insert 0, call.Insert 1, call.Insert 2, call.Insert 3, call.Insert 0,
            call.Flush, call.Insert 12]).2.distinct : Int)
        + (HashTable.run ex_hash ex_key ex_reduce (ex_table 3 3)
          { keys := [], recreated := 0, evicted := 0, drained := 0 }
          [call.Insert 0, call.Insert 1, call.Insert 2, call.Insert 3, call.Insert 0,
            call.Flush, call.Insert 12]).2.recreated
        - (HashTable.run ex_hash ex_key ex_reduce (ex_table 3 3)
          { keys := [], recreated := 0, evicted := 0, drained := 0 }
          [call.Insert 0, call.Insert 1, call.Insert 2, call.Insert 3, call.Insert 0,
            call.Flush, call.Insert 12]).2.evicted
        - (HashTable.run ex_hash ex_key ex_reduce (ex_table 3 3)
          { keys := [], recreated := 0, evicted := 0, drained := 0 }
          [call.Insert 0, call.Insert 1, call.Insert 2, call.Insert 3, call.Insert 0,
            call.Flush, call.Insert 12]).2.drained :=
  ⟨by decide,
    (Size_eq_distinct_plus_recreated ex_hash ex_key ex_reduce 3 3 (ex_table 3 3) rfl
      [call.Insert 0, call.Insert 1, call.Insert 2, call.Insert 3, call.Insert 0,
        call.Flush, call.Insert 12]).1⟩

/-- C11 (as stated, refuted): a key inserted again after its entry left the table is
resident again but is not a new distinct key.  After `Insert(0)`, `Flush`, `Insert(0)`
on a fresh table of 3 partitions `Size()` is 1 while distinct − evicted − drained is
`1 - 0 - 1 = 0`; after `Insert` of 0, 1, 2, 3 (the fourth spills the two entries of
partition 0) and 0 again `Size()` is 3 while distinct − evicted − drained is
`4 - 2 - 0 = 2`. -/
theorem Size_ne_distinct_minus_removed :
    (HashTable.run ex_hash ex_key ex_reduce (ex_table 3 3)
        { keys := [], recreated := 0, evicted := 0, drained := 0 }
        [call.Insert 0, call.Flush, call.Insert 0]).1.Size = 1 ∧
    (HashTable.run ex_hash ex_key ex_reduce (ex_table 3 3)
        { keys := [], recreated := 0, evicted := 0, drained := 0 }
        [call.Insert 0, call.Flush, call.Insert 0]).2
      = { keys := [0, 0], recreated := 1, evicted := 0, drained := 1 } ∧
    (HashTable.run ex_hash ex_key ex_reduce (ex_table 3 3)
        { keys := [], recreated := 0, evicted := 0, drained := 0 }
        [call.Insert 0, call.Flush, call.Insert 0]).1.Size
      ≠ ((HashTable.run ex_hash ex_key ex_reduce (ex_table 3 3)
          { keys := [], recreated := 0, evicted := 0, drained := 0 }
          [call.Insert 0, call.Flush, call.Insert 0]).2.distinct : Int)
        - (HashTable.run ex_hash ex_key ex_reduce (ex_table 3 3)
          { keys := [], recreated := 0, evicted := 0, drained := 0 }
          [call.Insert 0, call.Flush, call.Insert 0]).2.evicted
        - (HashTable.run ex_hash ex_key ex_reduce (ex_table 3 3)
          { keys := [], recreated := 0, evicted := 0, drained := 0 }
          [call.Insert 0, call.Flush, call.Insert 0]).2.drained ∧
    (HashTable.run ex_hash ex_key ex_reduce (ex_table 3 3)
        { keys := [], recreated := 0, evicted := 0, drained := 0 }
        [call.Insert 0, call.Insert 1, call.Insert 2, call.Insert 3, call.Insert 0]).1.Size
      ≠ ((HashTable.run ex_hash ex_key ex_reduce (ex_table 3 3)
          { keys := [], recreated := 0, evicted := 0, drained := 0 }
          [call.Insert 0, call.Insert 1, call.Insert 2, call.Insert 3,
            call.Insert 0]).2.distinct : Int)
        - (HashTable.run ex_hash ex_key ex_reduce (ex_table 3 3)
          { keys := [], recreated := 0, evicted := 0, drained := 0 }
          [call.Insert 0, call.Insert 1, call.Insert 2, call.Insert 3,
            call.Insert 0]).2.evicted
        - (HashTable.run ex_hash ex_key ex_reduce (ex_table 3 3)
          { keys := [], recreated := 0, evicted := 0, drained := 0 }
          [call.Insert 0, call.Insert 1, call.Insert 2, call.Insert 3,
            call.Insert 0]).2.drained := by
  decide

end AccountingClaim
end c7a

namespace c7a
section LaterWitnesses

theorem entry_in_home_bucket_only_witness :
    ex_state.array_.flatten = [{ key := 1, value := 1 }, { key := 2, value := 2 }] ∧
    (∀ g, ∀ n ∈ ex_state.array_.getD g [],
      g = (hash_result.of ex_hash n.key ex_state).global_index) ∧
    (∀ k, (ex_state.entries_of k).length ≤ 1) :=
  ⟨by decide,
    (entry_in_home_bucket_only ex_hash ex_key ex_reduce ex_state ex_state_reachable).1,
    (entry_in_home_bucket_only ex_hash ex_key ex_reduce ex_state ex_state_reachable).2.2.2⟩

theorem hash_result_in_bounds_witness :
    hash_result.of ex_hash 7 ex_state
      = { partition_id := 1, partition_offset := 7, global_index := 40 } ∧
    (hash_result.of ex_hash 7 ex_state).partition_id < ex_state.num_partitions_ ∧
    (hash_result.of ex_hash 7 ex_state).global_index < ex_state.array_.length :=
  ⟨by decide,
    (hash_result_in_bounds ex_hash ex_key ex_reduce ex_state ex_state_reachable 7).2.2.1,
    (hash_result_in_bounds ex_hash ex_key ex_reduce ex_state ex_state_reachable
      7).2.2.2.2.2.2.1⟩

theorem Insert_resident_key_reduces_witness :
    ex_state.entries_of (ex_key 11) = [{ key := 1, value := 1 }] ∧
    (HashTable.Insert ex_hash ex_key ex_reduce ex_state 11).1.entries_of 1
      = [{ key := 1, value := 13 }] ∧
    (HashTable.Insert ex_hash ex_key ex_reduce ex_state 11).2 = [] ∧
    (HashTable.Insert ex_hash ex_key ex_reduce ex_state 11).1.Size = ex_state.Size :=
  ⟨by decide, by decide,
    (Insert_resident_key_reduces ex_hash ex_key ex_reduce ex_state ex_state_reachable 11
      (by decide)).1,
    (Insert_resident_key_reduces ex_hash ex_key ex_reduce ex_state ex_state_reachable 11
      (by decide)).2.2.2.2.2.2⟩

theorem Insert_update_new_key_prepends_witness :
    ex_state.entries_of (ex_key 5) = [] ∧
    (HashTable.Insert_update ex_hash ex_key ex_reduce ex_state 5).array_.getD
        (hash_result.of ex_hash (ex_key 5) ex_state).global_index []
      = { key := ex_key 5, value := 5 }
          :: ex_state.array_.getD (hash_result.of ex_hash (ex_key 5) ex_state).global_index [] ∧
    (HashTable.Insert_update ex_hash ex_key ex_reduce ex_state 5).Size = ex_state.Size + 1 :=
  ⟨by decide,
    (Insert_update_new_key_prepends ex_hash ex_key ex_reduce ex_state ex_state_reachable 5
      (by decide)).1,
    (Insert_update_new_key_prepends ex_hash ex_key ex_reduce ex_state ex_state_reachable 5
      (by decide)).2.2.2.2.1⟩

theorem PopLargestSubtable_noop_witness :
    (∀ p, p < (ex_table 3 3).num_partitions_ → (ex_table 3 3).items_in_part_.getD p 0 = 0) ∧
    HashTable.PopLargestSubtable (ex_table 3 3) = (ex_table 3 3, []) :=
  ⟨by decide,
    PopLargestSubtable_noop ex_hash ex_key ex_reduce (ex_table 3 3)
      (ex_table_reachable 3 3 (by decide) (by decide)) (by decide)⟩

theorem Insert_all_Size_le_max_witness :
    (HashTable.Insert_all ex_hash ex_key ex_reduce (ex_table 3 3)
        [0, 10, 1, 2, 3, 4, 5, 6]).1.Size = 3 ∧
    (HashTable.Insert_all ex_hash ex_key ex_reduce (ex_table 3 3)
        [0, 10, 1, 2, 3, 4, 5, 6]).1.Size ≤ 3 :=
  ⟨by decide,
    (Insert_all_Size_le_max ex_hash ex_key ex_reduce 3 3 (ex_table 3 3) rfl (by decide)
      [0, 10, 1, 2, 3, 4, 5, 6]).1⟩

theorem partition_from_offset_witness :
    (∀ k : Nat, (hash_result.of ex_hash k (ex_table 3 100)).partition_id = 0 ∧
      (hash_result.of ex_hash k (ex_table 3 100)).global_index = 0) ∧
    (hash_result.of ex_hash 7 ex_state).partition_id < ex_state.buckets_per_part_ :=
  ⟨(partition_from_offset ex_hash ex_key ex_reduce (ex_table 3 100)
      (ex_table_reachable 3 100 (by decide) (by decide))).2.2.2.2 rfl,
    ((partition_from_offset ex_hash ex_key ex_reduce ex_state ex_state_reachable).2.1
      7).2.2.2.2.2.1⟩

theorem Size_le_max_table_size_witness :
    ex_state.Size = 2 ∧ ex_state.max_table_size_ = 3 ∧ ex_state.Size ≤ ex_state.max_table_size_ ∧
    (HashTable.Flush ex_state).1.Size ≤ ex_state.max_table_size_ :=
  ⟨by decide, by decide,
    (Size_le_max_table_size ex_hash ex_key ex_reduce ex_state ex_state_reachable
      (by decide)).1,
    (Size_le_max_table_size ex_hash ex_key ex_reduce ex_state ex_state_reachable
      (by decide)).2.2.2.2⟩

theorem counters_count_nodes_witness :
    ex_state.items_in_part_ = [0, 1, 1] ∧
    ex_state.Size = (ex_state.array_.flatten.length : Int) :=
  ⟨by decide,
    (counters_count_nodes ex_hash ex_key ex_reduce ex_state ex_state_reachable).2.2.1⟩

end LaterWitnesses
end c7a
